import Mathlib

/-!
Verification development for the offering-extraction engine of the
icon-media-web-crawler repository (`src/service_extractor.py`, `src/utils.py`).

Modelling conventions (shallow embedding):
* Python strings are `List Char` (`Str` below); `str.lower` is modelled for the
  ASCII range, `\w`, `isalpha`, `isdigit`, `isupper` likewise (all inputs in the
  claims are ASCII).
* Python floats only ever hold the two-decimal confidence constants
  0.70 … 1.00, so confidences are modelled exactly as naturals in *hundredths*
  (0.95 ↦ 95, 1.0 ↦ 100); the ordering of these doubles coincides with the
  ordering of the naturals, so every comparison in the source is preserved.
* `re` patterns appearing in the source are modelled by executable functions
  whose semantics follow Python's `re.search`/`re.sub`/`re.split` on the
  concrete pattern (including the `$` = end-or-before-final-newline rule and
  `.` not matching a newline).
* BeautifulSoup documents are modelled as a tree of element/text nodes parsed
  from the HTML; `json.loads` results inside `<script type="application/ld+json">`
  are modelled as an optional abstract JSON value (`none` = missing string or
  a JSON parse failure).
-/

abbrev Str := List Char

/-- Python whitespace characters (the `\s` class / `str.strip` default set). -/
def pyWs (c : Char) : Bool :=
  c == ' ' || c == '\t' || c == '\n' || c == '\r' || c == Char.ofNat 11 || c == Char.ofNat 12

def isLowerA (c : Char) : Bool := 'a' ≤ c && c ≤ 'z'

def isUpperA (c : Char) : Bool := 'A' ≤ c && c ≤ 'Z'

def isAlphaA (c : Char) : Bool := isLowerA c || isUpperA c

def isDigitA (c : Char) : Bool := '0' ≤ c && c ≤ '9'

/-- Python `\w` word characters (ASCII model). -/
def wordCharA (c : Char) : Bool := isAlphaA c || isDigitA c || c == '_'

/-- `str.lower` on one character (ASCII model). -/
def lowerC (c : Char) : Char :=
  if isUpperA c then Char.ofNat (c.toNat + 32) else c

/-- `str.lower` (ASCII model). -/
def pyLower (s : Str) : Str := s.map lowerC

/-- drop characters satisfying `p` from the end of the list. -/
def dropEndWhile (p : Char → Bool) (s : Str) : Str := (s.reverse.dropWhile p).reverse

/-- Python `str.strip(chars)`: remove the given characters from both ends. -/
def pyStripChars (set : Str) (s : Str) : Str :=
  dropEndWhile (fun c => set.contains c) (s.dropWhile (fun c => set.contains c))

def wsChars : Str := [' ', '\t', '\n', '\r', Char.ofNat 11, Char.ofNat 12]

/-- Python `str.strip()` (default whitespace). -/
def pyStrip (s : Str) : Str := dropEndWhile pyWs (s.dropWhile pyWs)

/-- Python `str.rstrip("s")`: remove every trailing `'s'`. -/
def rstripS (s : Str) : Str := dropEndWhile (fun c => c == 's') s

/-- Python substring test `t in s` (contiguous substring). -/
def isInfixB (t s : Str) : Bool :=
  (List.range (s.length + 1)).any (fun i => t.isPrefixOf (s.drop i))

/-- Python `str.split()` (split on whitespace runs, no empty words). -/
def pyWordsAux : Str → Str → List Str
  | [], acc => if acc.isEmpty then [] else [acc.reverse]
  | c :: rest, acc =>
      if pyWs c then
        if acc.isEmpty then pyWordsAux rest [] else acc.reverse :: pyWordsAux rest []
      else pyWordsAux rest (c :: acc)

def pyWords (s : Str) : List Str := pyWordsAux s []

/-- Python `str.split(c)` on a single-character separator (keeps empty parts). -/
def splitOnCAux (c : Char) : Str → Str → List Str
  | [], acc => [acc.reverse]
  | x :: rest, acc =>
      if x == c then acc.reverse :: splitOnCAux c rest [] else splitOnCAux c rest (x :: acc)

def splitOnC (c : Char) (s : Str) : List Str := splitOnCAux c s []

/-- Python single-character `str.replace(c, new)`. -/
def replaceCharWith (c : Char) (new : Str) (s : Str) : Str :=
  s.flatMap (fun x => if x == c then new else [x])

/-- `re.sub(p"+", rep)`: collapse every run of characters satisfying `p` to one
`rep` (`inRun` records whether the previous character was in a run). -/
def collapseRunsAux (p : Char → Bool) (rep : Char) : Bool → Str → Str
  | _, [] => []
  | inRun, c :: rest =>
      if p c then
        if inRun then collapseRunsAux p rep true rest
        else rep :: collapseRunsAux p rep true rest
      else c :: collapseRunsAux p rep false rest

def collapseRuns (p : Char → Bool) (rep : Char) (s : Str) : Str :=
  collapseRunsAux p rep false s

/-- `utils.normalize_keyword`: lowercase, substitute symbolic characters by the
fixed word mapping (`& / + @ # %`), drop remaining non-word/non-space/non-hyphen
characters, collapse whitespace and hyphen runs, trim whitespace and hyphens. -/
def normalize_keyword (k : Str) : Str :=
  if k.isEmpty then [] else
  let n := pyLower k
  let n := replaceCharWith '&' (' ' :: "and ".toList) n
  let n := replaceCharWith '/' (' ' :: "or ".toList) n
  let n := replaceCharWith '+' (' ' :: "plus ".toList) n
  let n := replaceCharWith '@' (' ' :: "at ".toList) n
  let n := replaceCharWith '#' (' ' :: "number ".toList) n
  let n := replaceCharWith '%' (' ' :: "percent ".toList) n
  let n := n.filter (fun c => wordCharA c || pyWs c || c == '-')
  let n := collapseRuns pyWs ' ' n
  let n := collapseRuns (fun c => c == '-') '-' n
  let n := pyStrip n
  pyStripChars ['-'] n

/-- `re.sub(r"([a-z])([A-Z])", r"\1 \2")`: insert a space at each
lower-to-upper transition (non-overlapping, left to right). -/
def camelSplit : Str → Str
  | [] => []
  | [c] => [c]
  | a :: b :: rest =>
      if isLowerA a && isUpperA b then a :: ' ' :: b :: camelSplit rest
      else a :: camelSplit (b :: rest)

def dashC (c : Char) : Bool := c == '-' || c == '—'

/-- `re.sub(r"[-—]{2,}", " ")`: each run of two or more dashes becomes one
space (the Bool is true while skipping the remainder of a collapsed run). -/
def collapseDashAux : Bool → Str → Str
  | _, [] => []
  | true, a :: rest =>
      if dashC a then collapseDashAux true rest else a :: collapseDashAux false rest
  | false, [a] => [a]
  | false, a :: b :: rest2 =>
      if dashC a then
        if dashC b then ' ' :: collapseDashAux true rest2
        else a :: collapseDashAux false (b :: rest2)
      else a :: collapseDashAux false (b :: rest2)

def collapseDashRuns (s : Str) : Str := collapseDashAux false s

/-- `re.sub(r"[c]{2,}", "")`: remove every run of two or more `c` (the Bool is
true while skipping the remainder of a removed run). -/
def removeRunsAux (c : Char) : Bool → Str → Str
  | _, [] => []
  | true, a :: rest =>
      if a == c then removeRunsAux c true rest else a :: removeRunsAux c false rest
  | false, [a] => [a]
  | false, a :: b :: rest2 =>
      if a == c then
        if b == c then removeRunsAux c true rest2
        else a :: removeRunsAux c false (b :: rest2)
      else a :: removeRunsAux c false (b :: rest2)

def removeRuns (c : Char) (s : Str) : Str := removeRunsAux c false s

def phoneSep (c : Char) : Bool := c == '-' || c == '.' || pyWs c || c == ')'

/-- does `re.search(r"\d{3}[-.\s)]\d{3,4}", ·)` match at the head of `s`? -/
def phoneAt (s : Str) : Bool :=
  match s with
  | d1 :: d2 :: d3 :: sp :: e1 :: e2 :: e3 :: _ =>
      isDigitA d1 && isDigitA d2 && isDigitA d3 && phoneSep sp &&
      isDigitA e1 && isDigitA e2 && isDigitA e3
  | _ => false

/-- start index of the leftmost phone-number match, if any. -/
def phoneIdx (s : Str) : Option Nat :=
  (List.range s.length).find? (fun i => phoneAt (s.drop i))

def phoneTrunc (s : Str) : Str :=
  match phoneIdx s with
  | some i => pyStrip (s.take i)
  | none => s

/-- punctuation set of `sanitize_text` step 7 (quotes, brackets, braces). -/
def sanitizePuncts : Str :=
  ['.', ',', ';', ':', '!', '?', Char.ofNat 39, Char.ofNat 34, Char.ofNat 96,
   '(', ')', '[', ']', Char.ofNat 123, Char.ofNat 125]

/-- `utils.sanitize_text`: camel-case split, dash-run collapse, truncation at
`@` and at phone-number patterns, removal of `.`/`!` runs, whitespace collapse
and edge-punctuation trim. -/
def sanitize_text (t : Str) : Str :=
  if t.isEmpty then [] else
  let t := camelSplit t
  let t := collapseDashRuns t
  let t := if t.contains '@' then pyStrip (t.takeWhile (fun c => c != '@')) else t
  let t := phoneTrunc t
  let t := removeRuns '.' t
  let t := removeRuns '!' t
  let t := collapseRuns pyWs ' ' t
  let t := pyStrip t
  pyStripChars sanitizePuncts t

/-! ### ServicePageExtractor vocabulary and validator (`service_extractor.py`) -/

/-- `ServicePageExtractor.GENERIC_TERMS` (exact-match exclusion set). -/
def GENERIC_TERMS : List Str :=
  ["home", "back", "next", "previous", "menu", "login", "logout",
   "sign in", "sign up", "register", "subscribe",
   "learn more", "read more", "click here", "get started", "contact us",
   "view all", "see all", "show more", "download", "loading", "search",
   "page", "tab", "button", "link", "close", "open", "submit",
   "careers", "our story", "our team", "our news", "our services",
   "about us", "about", "contact", "news", "blog", "events",
   "community", "media", "gallery", "resources",
   "let's work together", "get in touch", "request a quote",
   "etc", "etc.", "services", "solutions", "offerings",
   "products", "platforms", "capabilities",
   "sectors", "industries", "markets",
   "energy", "mining", "industrial", "forestry", "agriculture",
   "transportation", "manufacturing", "retail", "healthcare",
   "education", "finance", "technology", "construction",
   "soil", "water", "air", "sediment", "rock"].map String.toList

/-- `ServicePageExtractor.DESCRIPTION_INDICATORS` (substring match). -/
def DESCRIPTION_INDICATORS : List Str :=
  ["through", "including", "such as", "for example", "conducted to",
   "we provide", "we offer", "designed to", "intended for",
   "allows for", "enables", "helps to", "used for"].map String.toList

/-- `ServicePageExtractor.OFFERING_INDICATORS` (substring match; the source
set literal is transcribed in order, repeated entries included). -/
def OFFERING_INDICATORS : List Str :=
  ["consulting", "advisory", "support", "maintenance", "implementation",
   "integration", "deployment", "installation", "configuration", "customization",
   "training", "coaching", "mentoring", "staffing", "recruiting",
   "development", "engineering", "design", "architecture", "programming",
   "coding", "testing", "qa", "quality assurance", "devops",
   "assessment", "analysis", "evaluation", "audit", "review",
   "inspection", "monitoring", "reporting", "analytics",
   "management", "optimization", "improvement", "enhancement",
   "strategy", "planning", "governance", "compliance", "regulatory",
   "platform", "software", "application", "system", "tool",
   "solution", "framework", "infrastructure", "cloud", "saas",
   "api", "integration", "automation", "ai", "ml", "analytics",
   "product", "device", "equipment", "hardware", "machinery",
   "instrument", "appliance", "component", "part", "module",
   "treatment", "therapy", "procedure", "diagnosis", "care",
   "surgery", "rehabilitation", "prevention", "screening",
   "litigation", "advisory", "counseling", "representation",
   "filing", "investment", "portfolio", "fund", "advisory",
   "course", "program", "certification", "degree", "curriculum",
   "workshop", "seminar", "class", "lesson", "tutorial",
   "methodology", "approach", "process", "practice", "technique",
   "method", "framework", "model", "standard", "protocol",
   "expertise", "capability", "competency", "specialization",
   "specialty", "proficiency", "skill", "experience"].map String.toList

/-- version/edition markers of the moderate-acceptance rule (substring match). -/
def VERSION_MARKERS : List Str :=
  ["version", "v.", "v1", "v2", "edition", "pro", "premium",
   "enterprise", "basic", "standard", "advanced", "suite", "plus"].map String.toList

def charAt? (s : Str) (i : Nat) : Option Char := (s.drop i).head?

def sliceStartsWith (s : Str) (i : Nat) (pat : Str) : Bool := pat.isPrefixOf (s.drop i)

/-- `\b` immediately before position `i` when the character at `i` is a word
character: position 0, or previous character not a word character. -/
def boundaryBefore (s : Str) (i : Nat) : Bool :=
  i == 0 || (match charAt? s (i - 1) with
             | some c => !wordCharA c
             | none => true)

/-- at position `i` there is no word character (or the string has ended). -/
def nonWordAt (s : Str) (i : Nat) : Bool :=
  match charAt? s i with
  | some c => !wordCharA c
  | none => true

/-- `re.search(r"^.*:$", t)`: the newline-free prefix ends with a colon and
reaches a `$` position (end, or just before one final newline). -/
def colonHeaderMatch (t : Str) : Bool :=
  let r := t.takeWhile (fun c => c != '\n')
  !r.isEmpty && r.getLast? == some ':' && t.length ≤ r.length + 1

/-- `re.search(r"\bact\b.*\bregulation", t)` (on lowercased text). -/
def actRegulationMatch (t : Str) : Bool :=
  (List.range (t.length + 1)).any (fun i =>
    boundaryBefore t i && sliceStartsWith t i ("act".toList) && nonWordAt t (i + 3) &&
    (List.range (t.length + 1)).any (fun j =>
      decide (i + 3 ≤ j) && boundaryBefore t j &&
      sliceStartsWith t j ("regulation".toList) &&
      ((t.drop (i + 3)).take (j - (i + 3))).all (fun c => c != '\n')))

/-- `re.search(r"^\s*and\s+", t)` (on lowercased text). -/
def startsAndMatch (t : Str) : Bool :=
  let r := t.dropWhile pyWs
  sliceStartsWith r 0 ("and".toList) &&
    (match charAt? r 3 with | some c => pyWs c | none => false)

/-- `re.search(r"^\s*or\s+", t)` (on lowercased text). -/
def startsOrMatch (t : Str) : Bool :=
  let r := t.dropWhile pyWs
  sliceStartsWith r 0 ("or".toList) &&
    (match charAt? r 2 with | some c => pyWs c | none => false)

/-- `re.search(r"^\s*\d+\.\s*$", t)`. -/
def numberDotMatch (t : Str) : Bool :=
  let r := t.dropWhile pyWs
  let ds := r.takeWhile isDigitA
  !ds.isEmpty &&
    (match charAt? r ds.length with
     | some '.' => (r.drop (ds.length + 1)).all pyWs
     | _ => false)

/-- `re.search(r"^\s*[a-z]\)\s*$", t, re.IGNORECASE)` (on lowercased text). -/
def letterParenMatch (t : Str) : Bool :=
  match t.dropWhile pyWs with
  | a :: ')' :: rest => isLowerA a && rest.all pyWs
  | _ => false

/-- `re.search(r"^Our\s+", t, re.IGNORECASE)` (on lowercased text). -/
def startsOurMatch (t : Str) : Bool :=
  sliceStartsWith t 0 ("our".toList) &&
    (match charAt? t 3 with | some c => pyWs c | none => false)

/-- `re.search(r"\.$", t)`: a period at a `$` position. -/
def endsPeriodMatch (t : Str) : Bool :=
  t.getLast? == some '.' || ['.', '\n'].isSuffixOf t

/-- `ServicePageExtractor.EXCLUDE_PATTERNS`: does any of the eight case-insensitive
regular expressions match the candidate text? -/
def excludePatternsMatch (t : Str) : Bool :=
  let lt := pyLower t
  colonHeaderMatch lt || actRegulationMatch lt || startsAndMatch lt ||
  startsOrMatch lt || numberDotMatch lt || letterParenMatch lt ||
  startsOurMatch lt || endsPeriodMatch lt

/-- first word starts with an uppercase letter (`words[0][0].isupper()`). -/
def firstWordCapital (words : List Str) : Bool :=
  match words with
  | (c :: _) :: _ => isUpperA c
  | _ => false

/-- Python `str.isupper()` (ASCII model: has a letter, no lowercase letter). -/
def pyIsUpper (t : Str) : Bool := t.any isAlphaA && t.all (fun c => !isLowerA c)

/-- Python `str.isalpha()` (ASCII model). -/
def pyIsAlpha (t : Str) : Bool := !t.isEmpty && t.all isAlphaA

def hasVersionMarker (tl : Str) : Bool := VERSION_MARKERS.any (fun m => isInfixB m tl)

def hasTrademark (t : Str) : Bool := t.contains '™' || t.contains '®' || t.contains '©'

def hasOfferingIndicator (tl : Str) : Bool :=
  OFFERING_INDICATORS.any (fun o => isInfixB o tl)

/-- `ServicePageExtractor.is_valid_offering_keyword`. Note: the 3–80 length
bound is applied to the raw text, every later rule to the stripped text. -/
def is_valid_offering_keyword (text : Str) (extraction_method : Option Str := none) : Bool :=
  if text.isEmpty || text.length < 3 || text.length > 80 then false
  else
    let t := pyStrip text
    let words := pyWords t
    let wc := words.length
    if wc > 15 then false
    else
      let tl := pyLower t
      if GENERIC_TERMS.any (fun g => g == tl) then false
      else if excludePatternsMatch t then false
      else if !(t.any isAlphaA) then false
      else if DESCRIPTION_INDICATORS.any (fun d => isInfixB d tl) && wc > 6 then false
      else if wc == 1 && extraction_method == some ("offering_card".toList) then true
      else if wc == 1 && !hasOfferingIndicator tl && !(t.contains '-') && !(decide (t.length > 10)) then false
      else if hasOfferingIndicator tl && wc ≥ 2 then true
      else if wc ≥ 2 && firstWordCapital words &&
              (hasVersionMarker tl || hasTrademark t || wc ≤ 6) then true
      else if wc == 1 && pyIsUpper t && 2 ≤ t.length && t.length ≤ 4 && pyIsAlpha t then true
      else if wc == 1 && hasOfferingIndicator tl then true
      else false

/-! ### URL model (`urllib.parse` subset) and `NavigationLinkFollower` -/

/-- characters allowed in a URL scheme after the leading letter. -/
def schemeChar (c : Char) : Bool :=
  isAlphaA c || isDigitA c || c == '+' || c == '-' || c == '.'

/-- validity of a scheme candidate: nonempty, scheme characters only,
leading letter. -/
def schemeValid (pre : Str) : Bool :=
  !pre.isEmpty && pre.all schemeChar &&
    (match pre.head? with | some c => isAlphaA c | none => false)

/-- the scheme split of `urllib.parse`: a valid scheme before the first colon
(leading letter, scheme characters only), returned with the remainder. -/
def schemeSplit (u : Str) : Option (Str × Str) :=
  match u.dropWhile (fun c => c != ':') with
  | ':' :: rest =>
      if schemeValid (u.takeWhile (fun c => c != ':')) then
        some (u.takeWhile (fun c => c != ':'), rest)
      else none
  | _ => none

/-- the URL with a valid scheme prefix removed. -/
def restOf (u : Str) : Str :=
  match schemeSplit u with
  | some sr => sr.2
  | none => u

/-- `urlparse(u).netloc`: present only when the (scheme-stripped) remainder
starts with `//`; stops at the first `/ ? #`. -/
def urlNetloc (u : Str) : Str :=
  if ("//".toList).isPrefixOf (restOf u) then
    ((restOf u).drop 2).takeWhile (fun c => c != '/' && c != '?' && c != '#')
  else []

/-- the remainder after scheme and netloc. -/
def urlAfterNetloc (u : Str) : Str :=
  if ("//".toList).isPrefixOf (restOf u) then
    ((restOf u).drop 2).dropWhile (fun c => c != '/' && c != '?' && c != '#')
  else restOf u

/-- `urlparse(u).path`: the remainder after scheme and netloc, before any
query or fragment. -/
def urlPath (u : Str) : Str :=
  (urlAfterNetloc u).takeWhile (fun c => c != '?' && c != '#')

/-- `scheme:` prefix of a URL (empty when there is no scheme). -/
def schemePrefix (u : Str) : Str :=
  match schemeSplit u with
  | some sr => sr.1 ++ [':']
  | none => []

/-- scheme plus `//netloc`, e.g. `https://example.com`. -/
def urlSchemeNetloc (u : Str) : Str :=
  schemePrefix u ++
    (if ("//".toList).isPrefixOf (restOf u) then '/' :: '/' :: urlNetloc u else [])

/-- base URL truncated after the last `/` of its path (for relative joins). -/
def urlBaseDir (u : Str) : Str :=
  dropEndWhile (fun c => c != '/') (u.takeWhile (fun c => c != '?' && c != '#'))

/-- `urllib.parse.urljoin` (model: absolute, scheme-relative, root-relative and
plain relative references; dot segments and same-scheme relative forms are not
normalized — no claim uses them). -/
def urljoin (base href : Str) : Str :=
  if href.isEmpty then base
  else if (schemeSplit href).isSome then href
  else if ("//".toList).isPrefixOf href then schemePrefix base ++ href
  else if href.head? == some '/' then urlSchemeNetloc base ++ href
  else urlBaseDir base ++ href

/-- `NavigationLinkFollower.OFFERING_PATTERNS` (raw substrings of the path). -/
def NAV_OFFERING_PATTERNS : List Str :=
  ["/services", "/service",
   "/solutions", "/solution",
   "/products", "/product",
   "/offerings", "/offering",
   "/capabilities", "/capability",
   "/expertise", "/what-we-do", "/our-work",
   "/practices", "/practice",
   "/areas", "/area",
   "/industries", "/industry",
   "/specialties", "/specialty",
   "/platforms", "/technologies", "/applications", "/tools",
   "/software", "/systems", "/integrations", "/apis",
   "/portfolio", "/projects", "/work", "/our-solutions",
   "/practice-areas",
   "/treatments", "/procedures",
   "/programs", "/courses", "/training",
   "/packages", "/plans", "/pricing",
   "/brands", "/collections", "/catalog",
   "/methodologies", "/frameworks", "/approaches",
   "services", "service",
   "solutions", "solution",
   "products", "product",
   "offerings", "offering",
   "capabilities", "capability",
   "practices", "practice",
   "specialties", "specialty",
   "platforms", "platform",
   "technologies", "technology",
   "applications", "application"].map String.toList

/-- `NavigationLinkFollower.EXCLUDE_PATTERNS` (raw substrings of the path). -/
def NAV_EXCLUDE_PATTERNS : List Str :=
  ["/blog", "/news", "/about", "/contact", "/careers", "/jobs",
   "/privacy", "/terms", "/team", "/people", "/leadership",
   "/events", "/webinars", "/resources", "/downloads",
   "/case-studies", "/testimonials", "/reviews", "/clients",
   "/investors", "/press", "/media", "/faq", "/support",
   "pdf", "download", ".jpg", ".png", ".mp4", "/search"].map String.toList

/-- `NavigationLinkFollower.is_offering_url`: exclusions are checked first and
short-circuit; otherwise any inclusion substring of the lowercased path wins. -/
def is_offering_url (url : Str) : Bool :=
  let path := pyLower (urlPath url)
  if NAV_EXCLUDE_PATTERNS.any (fun e => isInfixB e path) then false
  else NAV_OFFERING_PATTERNS.any (fun p => isInfixB p path)

/-- `re.search(lit + "$", path)`: the literal at a `$` position. -/
def endAnchoredMatch (lit : Str) (path : Str) : Bool :=
  lit.isSuffixOf path || (lit ++ ['\n']).isSuffixOf path

/-- the listing regexes of `classify_offering_url`, without their `$` anchor. -/
def LISTING_INDICATORS : List Str :=
  ["/services", "/services/", "/service", "/service/",
   "/solutions", "/solutions/", "/solution", "/solution/",
   "/products", "/products/", "/product", "/product/",
   "/offerings", "/offerings/", "/offering", "/offering/",
   "/what-we-do", "/what-we-do/",
   "/platforms", "/platforms/",
   "/technologies", "/technologies/",
   "/portfolio", "/portfolio/",
   "/practice-areas", "/practice-areas/",
   "/practices", "/practices/", "/practice", "/practice/"].map String.toList

/-- `NavigationLinkFollower.classify_offering_url`. -/
def classify_offering_url (url : Str) : Option Str :=
  let path := pyLower (urlPath url)
  if LISTING_INDICATORS.any (fun l => endAnchoredMatch l path) then
    some ("service_listing".toList)
  else if NAV_OFFERING_PATTERNS.any (fun p => isInfixB p path) then
    let parts := (splitOnC '/' path).filter (fun p => !p.isEmpty)
    if parts.length ≥ 2 then some ("service_detail".toList)
    else if parts.length == 1 then some ("service_listing".toList)
    else none
  else none

/-! ### Parsed-document model (BeautifulSoup subset) -/

/-- abstract JSON value, the result of `json.loads` on a script body
(numbers are modelled as integers; no claim depends on JSON floats). -/
inductive Json where
  | null
  | bool (b : Bool)
  | num (n : Int)
  | str (s : Str)
  | arr (items : List Json)
  | obj (fields : List (Str × Json))

/-- attributes of one element; only the attributes the engine reads are kept.
`json` on `<script>` elements models the result of `json.loads` applied to the
script's string content (`none` = missing string or JSON parse failure). -/
structure Attrs where
  classes : List Str := []
  idAttr : Option Str := none
  href : Option Str := none
  role : Option Str := none
  nameAttr : Option Str := none
  contentAttr : Option Str := none
  typeAttr : Option Str := none

/-- one node of the parsed document tree. -/
inductive Node where
  | elem (tag : Str) (attrs : Attrs) (json : Option Json) (children : List Node)
  | text (s : Str)

/-- an element located in the document: its tag/attributes/children plus its
ancestor attribute chain (nearest first, used by `.parent` walks) and its
preceding siblings (nearest first, used by `find_previous_sibling`). -/
structure LocElem where
  chain : List Attrs
  prevSibs : List Node
  tag : Str
  attrs : Attrs
  json : Option Json
  children : List Node

mutual

/-- all elements below a node in document (preorder) order, tracking
ancestors and preceding siblings — the traversal behind `find_all`. -/
def elemsOfNode (chain : List Attrs) (prev : List Node) : Node → List LocElem
  | Node.text _ => []
  | Node.elem t a j ch => ⟨chain, prev, t, a, j, ch⟩ :: elemsOf (a :: chain) ch []

def elemsOf (chain : List Attrs) : List Node → List Node → List LocElem
  | [], _ => []
  | n :: rest, prev => elemsOfNode chain prev n ++ elemsOf chain rest (n :: prev)

end

/-- `soup.find_all(...)` universe: every element of the document in order. -/
def allElems (doc : List Node) : List LocElem := elemsOf [] doc []

/-- descendants of a located element, in document order. -/
def descendantsOf (e : LocElem) : List LocElem := elemsOf (e.attrs :: e.chain) e.children []

mutual

/-- `element.get_text(strip=True)`: concatenation of the stripped text pieces. -/
def getTextStripNode : Node → Str
  | Node.text s => pyStrip s
  | Node.elem _ _ _ ch => getTextStrip ch

def getTextStrip : List Node → Str
  | [] => []
  | n :: rest => getTextStripNode n ++ getTextStrip rest

end

/-- the class/id regex of `find_service_links`
(`re.compile('nav|menu|content|main|services|products|solutions')`), matched
case-sensitively against one attribute value. -/
def navClassRegex (v : Str) : Bool :=
  (["nav", "menu", "content", "main", "services", "products", "solutions"].map
    String.toList).any (fun k => isInfixB k v)

/-- `soup.find_all(class_=re.compile(...))`: any class value matches. -/
def matchesNavClass (e : LocElem) : Bool := e.attrs.classes.any navClassRegex

/-- `soup.find_all(['nav', 'header', 'main', 'article'])` then
`find_all(class_=...)` — the two area lists, concatenated (as in the source). -/
def navAreas (doc : List Node) : List LocElem :=
  (allElems doc).filter
      (fun e => ["nav", "header", "main", "article"].map String.toList |>.contains e.tag) ++
    (allElems doc).filter matchesNavClass

/-- `area.find_all('a', href=True)`: anchor descendants carrying `href`,
reduced to (href, link text). -/
def anchorsOf (e : LocElem) : List (Str × Str) :=
  (descendantsOf e).filterMap (fun a =>
    if a.tag == "a".toList then
      match a.attrs.href with
      | some h => some (h, getTextStrip a.children)
      | none => none
    else none)

/-- the anchor stream `find_service_links` iterates over: all areas' anchors in
traversal order. -/
def anchorStream (doc : List Node) : List (Str × Str) :=
  (navAreas doc).flatMap anchorsOf

/-- one classified link of `find_service_links`. -/
structure LinkInfo where
  url : Str
  typ : Str
  linkText : Str
deriving DecidableEq

/-- `absolute_url.split('#')[0].split('?')[0]`: strip fragment and query. -/
def cleanUrl (u : Str) : Str :=
  (u.takeWhile (fun c => c != '#')).takeWhile (fun c => c != '?')

/-- trailing-slash normalization of `find_service_links`: strip all trailing
slashes unless the path is the root. -/
def normalizeLinkUrl (absolute : Str) : Str :=
  if (cleanUrl absolute).getLast? == some '/' &&
      decide ((urlPath (cleanUrl absolute)).length > 1) then
    dropEndWhile (fun c => c == '/') (cleanUrl absolute)
  else cleanUrl absolute

/-- the per-anchor body of `find_service_links`: resolve, same-host check,
strip fragment/query, normalize the trailing slash, dedupe against `seen`,
then classify; `none` when the anchor is skipped. -/
def tryLink (base : Str) (seen : List Str) (a : Str × Str) : Option LinkInfo :=
  if urlNetloc (urljoin base a.1) != urlNetloc base then none
  else if seen.contains (normalizeLinkUrl (urljoin base a.1)) then none
  else if is_offering_url (normalizeLinkUrl (urljoin base a.1)) then
    match classify_offering_url (normalizeLinkUrl (urljoin base a.1)) with
    | some t => some ⟨normalizeLinkUrl (urljoin base a.1), t, a.2⟩
    | none => none
  else none

/-- the accumulation loop of `find_service_links` (the cap is tested only
after an append, as in the source). -/
def processAnchors (base : Str) (maxLinks : Nat) :
    List (Str × Str) → List LinkInfo → List Str → List LinkInfo
  | [], links, _ => links
  | a :: rest, links, seen =>
      match tryLink base seen a with
      | none => processAnchors base maxLinks rest links seen
      | some li =>
          if maxLinks ≤ (links ++ [li]).length then links ++ [li]
          else processAnchors base maxLinks rest (links ++ [li]) (li.url :: seen)

/-- `NavigationLinkFollower.find_service_links`. -/
def find_service_links (doc : List Node) (base : Str) (maxLinks : Nat := 50) : List LinkInfo :=
  processAnchors base maxLinks (anchorStream doc) [] []

/-- the candidate urls accepted by the loop with no cap, in traversal order
with first occurrences kept — the reference order for the output. -/
def acceptedStream (base : Str) : List (Str × Str) → List Str → List Str
  | [], _ => []
  | a :: rest, seen =>
      match tryLink base seen a with
      | none => acceptedStream base rest seen
      | some li => li.url :: acceptedStream base rest (li.url :: seen)

/-- helper to build an anchor element. -/
def aElem (h : String) (txt : String) : Node :=
  Node.elem ("a".toList) { href := some h.toList } none [Node.text txt.toList]

/-- the homepage document of the link-classification test:
`<nav><a href="/services">Services</a><a href="/services/cloud-migration">Cloud</a><a href="/blog/news">Blog</a></nav>`. -/
def demoNavDoc : List Node :=
  [Node.elem ("nav".toList) {} none
    [aElem "/services" "Services",
     aElem "/services/cloud-migration" "Cloud",
     aElem "/blog/news" "Blog"]]

/-- the anchors of a document in raw document order (preorder), by href. -/
def docAnchors (doc : List Node) : List Str :=
  (allElems doc).filterMap (fun a =>
    if a.tag == "a".toList then a.attrs.href else none)

/-- a document whose class-matched menu div precedes the semantic nav in
document order: `<div class="menu"><a href="/products">Products</a></div>
<nav><a href="/services">Services</a></nav>`. -/
def orderDoc : List Node :=
  [Node.elem ("div".toList) { classes := ["menu".toList] } none
     [aElem "/products" "Products"],
   Node.elem ("nav".toList) {} none
     [aElem "/services" "Services"]]

/-! ### ServicePageExtractor: context helpers -/

/-- exclusion indicators of `is_navigation_or_sidebar`. -/
def NAV_SIDEBAR_INDICATORS : List Str :=
  ["nav", "menu", "sidebar", "side-bar", "aside",
   "footer", "header", "breadcrumb", "widget",
   "related", "recent", "popular", "tags",
   "social", "share", "follow", "subscribe"].map String.toList

/-- class values plus id value of one element's attributes. -/
def attrsTokens (a : Attrs) : List Str :=
  a.classes ++ (match a.idAttr with | some i => [i] | none => [])

/-- `ServicePageExtractor.is_navigation_or_sidebar`: own class/id plus up to
five ancestor levels, joined with spaces, lowercased, substring-searched. -/
def is_navigation_or_sidebar (e : LocElem) : Bool :=
  let toCheck := attrsTokens e.attrs ++ (e.chain.take 5).flatMap attrsTokens
  let s := pyLower (List.intercalate [' '] toCheck)
  NAV_SIDEBAR_INDICATORS.any (fun i => isInfixB i s)

def selTag (t : String) (e : LocElem) : Bool := e.tag == t.toList

def selClass (c : String) (e : LocElem) : Bool := e.attrs.classes.contains c.toList

def selId (i : String) (e : LocElem) : Bool := e.attrs.idAttr == some i.toList

def selRoleMain (e : LocElem) : Bool := e.attrs.role == some ("main".toList)

/-- the selector preference list of `get_main_content_area`. -/
def mainSelectors : List (LocElem → Bool) :=
  [selTag "main", selTag "article", selRoleMain,
   selClass "main-content", selClass "content",
   selId "main", selId "content",
   selClass "post-content", selClass "entry-content"]

def findBySelectors : List (LocElem → Bool) → List Node → Option LocElem
  | [], _ => none
  | p :: rest, doc =>
      match (allElems doc).find? p with
      | some e => some e
      | none => findBySelectors rest doc

/-- `ServicePageExtractor.get_main_content_area`: first selector match, else
the body, else the whole soup; returned as (ancestor chain, content nodes). -/
def get_main_content_area (doc : List Node) : List Attrs × List Node :=
  match findBySelectors mainSelectors doc with
  | some e => (e.attrs :: e.chain, e.children)
  | none =>
      match (allElems doc).find? (selTag "body") with
      | some e => (e.attrs :: e.chain, e.children)
      | none => ([], doc)

/-- elements of the main content area, in document order. -/
def mainContentElems (doc : List Node) : List LocElem :=
  elemsOf (get_main_content_area doc).1 (get_main_content_area doc).2 []

/-! ### ServicePageExtractor: title cleaning -/

def titleSeparators : List Str :=
  [" | ", " - ", " — ", " :: ", " » ", " : ", " / "].map String.toList

def titleLegalTokens : List Str :=
  ["inc", "ltd", "llc", "corp", "engineering", "company", "services"].map String.toList

/-- Python `str.split(sep)` on a multi-character separator (fuel = length). -/
def splitOnSubAux (sep : Str) : Nat → Str → Str → List Str
  | _, [], acc => [acc.reverse]
  | 0, s, acc => [acc.reverse ++ s]
  | fuel + 1, c :: rest, acc =>
      if sep.isPrefixOf (c :: rest) then
        acc.reverse :: splitOnSubAux sep fuel (rest.drop (sep.length - 1)) []
      else splitOnSubAux sep fuel rest (c :: acc)

def splitOnSub (sep s : Str) : List Str := splitOnSubAux sep s.length s []

/-- the part-selection loop of `clean_page_title`: first stripped part that does
not contain a legal-entity token and is longer than three characters. -/
def pickTitlePart : List Str → Option Str
  | [] => none
  | p :: rest =>
      let p := pyStrip p
      if titleLegalTokens.any (fun t => isInfixB t (pyLower p)) then pickTitlePart rest
      else if !p.isEmpty && decide (p.length > 3) then some p
      else pickTitlePart rest

/-- split on the first separator present in the title and pick a part. -/
def applyFirstSep (title : Str) : Str :=
  match titleSeparators.find? (fun sep => isInfixB sep title) with
  | some sep =>
      match pickTitlePart (splitOnSub sep title) with
      | some p => p
      | none => title
  | none => title

/-- does `\s+[seps]\s+.*(?:tokens).*$` (IGNORECASE; empty token list = no token
constraint) match starting at position `i`? -/
def companyPatMatchAt (seps : List Char) (tokens : List Str) (s : Str) (i : Nat) : Bool :=
  let n := s.length
  (match charAt? s i with | some c => pyWs c | none => false) &&
  (let k := i + ((s.drop i).takeWhile pyWs).length
   (match charAt? s k with | some c => seps.contains c | none => false) &&
   (match charAt? s (k + 1) with | some c => pyWs c | none => false) &&
   ((List.range (n + 1)).any (fun m =>
      decide (k + 2 ≤ m) &&
      ((s.drop (k + 1)).take (m - (k + 1))).all pyWs &&
      (let r := (s.drop m).takeWhile (fun c => c != '\n')
       (tokens.isEmpty || tokens.any (fun t => isInfixB t (pyLower r))) &&
       (m + r.length == n || m + r.length + 1 == n)))))

/-- `re.sub` of one company pattern: delete from the leftmost match start to
the `$` position (keeping a final newline when the match stops before it). -/
def applyCompanySub (seps : List Char) (tokens : List Str) (s : Str) : Str :=
  match (List.range s.length).find? (companyPatMatchAt seps tokens s) with
  | some i => s.take i ++ (if s.getLast? == some '\n' then ['\n'] else [])
  | none => s

/-- `ServicePageExtractor.clean_page_title` (the engine always calls it with
`company_name=None`, so the company-name replacement step is a no-op). -/
def clean_page_title (title : Str) : Option Str :=
  if title.isEmpty then none
  else
    let original := title
    let title := applyFirstSep title
    let title := pyStrip title
    let title := applyCompanySub [':', '-', '–', '—']
      (["engineering", "inc", "ltd", "llc", "corp", "company"].map String.toList) title
    let title := applyCompanySub ['|'] [] title
    let title := applyCompanySub [':']
      (["engineering", "inc", "ltd"].map String.toList) title
    let title := pyStrip title
    let title := if title.length < 3 then original else title
    if is_valid_offering_keyword title none then some title else none

/-! ### ServicePageExtractor: primary extractors -/

/-- `extract_from_h1`: every `<h1>` in the document, sanitized and validated. -/
def extract_from_h1 (doc : List Node) : List (Str × Nat) :=
  ((allElems doc).filter (fun e => e.tag == "h1".toList)).filterMap (fun h =>
    let text := sanitize_text (getTextStrip h.children)
    if is_valid_offering_keyword text none then some (text, 95) else none)

/-- the heading levels and confidences of `extract_from_headings`. -/
def headingLevels : List (Str × Nat) :=
  [("h2".toList, 88), ("h3".toList, 85), ("h4".toList, 82), ("h5".toList, 80), ("h6".toList, 78)]

/-- `extract_from_headings`: H2–H6 in main content, nav/sidebar excluded. -/
def extract_from_headings (doc : List Node) : List (Str × Nat) :=
  let mc := mainContentElems doc
  headingLevels.flatMap (fun tc =>
    (mc.filter (fun e => e.tag == tc.1)).filterMap (fun h =>
      if is_navigation_or_sidebar h then none
      else
        let text := sanitize_text (getTextStrip h.children)
        if is_valid_offering_keyword text none then some (text, tc.2) else none))

/-- `extract_from_title`: first `<title>`, cleaned by `clean_page_title`. -/
def extract_from_title (doc : List Node) : List (Str × Nat) :=
  match (allElems doc).find? (fun e => e.tag == "title".toList) with
  | some t =>
      match clean_page_title (getTextStrip t.children) with
      | some c => [(c, 90)]
      | none => []
  | none => []

/-- `extract_from_meta`: comma-split content of `<meta name="keywords">`. -/
def extract_from_meta (doc : List Node) : List (Str × Nat) :=
  match (allElems doc).find? (fun e =>
      e.tag == "meta".toList && e.attrs.nameAttr == some ("keywords".toList)) with
  | some m =>
      match m.attrs.contentAttr with
      | some content =>
          if content.isEmpty then []
          else
            (splitOnC ',' content).filterMap (fun kw =>
              let kw := pyStrip kw
              if is_valid_offering_keyword kw none then some (kw, 85) else none)
      | none => []
  | none => []

/-! ### ServicePageExtractor: JSON-LD extraction -/

/-- the recognized `@type` values of `extract_from_json_ld`. -/
def JSON_VALID_TYPES : List Str :=
  ["Service", "Product", "Offer", "SoftwareApplication",
   "MedicalProcedure", "MedicalTherapy", "Course", "EducationalProgram",
   "ProfessionalService", "FinancialProduct", "Vehicle", "Drug",
   "ItemList"].map String.toList

def jsonGet (fields : List (Str × Json)) (k : Str) : Option Json :=
  (fields.find? (fun f => f.1 == k)).map (fun f => f.2)

/-- Python truthiness of a JSON value. -/
def jsonTruthy : Json → Bool
  | .null => false
  | .bool b => b
  | .num n => n != 0
  | .str s => !s.isEmpty
  | .arr l => !l.isEmpty
  | .obj f => !f.isEmpty

/-- `t in valid_types` for one candidate type; `none` models the `TypeError`
raised on an unhashable `t` (list or dict), which the per-block handler catches. -/
def typeCheckOne : Json → Option Bool
  | .str s => some (JSON_VALID_TYPES.contains s)
  | .arr _ => none
  | .obj _ => none
  | _ => some false

/-- lazy `any(t in valid_types for t in types)`: short-circuits on a match
before a later unhashable element can raise. -/
def checkTypes : List Json → Option Bool
  | [] => some false
  | t :: rest =>
      match typeCheckOne t with
      | none => none
      | some true => some true
      | some false => checkTypes rest

/-- keywords from a `name` value; `none` models the `TypeError`/`AttributeError`
raised when a truthy non-string reaches `is_valid_offering_keyword`. -/
def nameKeywords : Option Json → Option (List (Str × Nat))
  | none => some []
  | some v =>
      if jsonTruthy v then
        match v with
        | .str s => some (if is_valid_offering_keyword s none then [(s, 100)] else [])
        | _ => none
      else some []

/-- one element of an offers list: dict offers contribute their `name`. -/
def offerKeywords1 : Json → Option (List (Str × Nat))
  | .obj f => nameKeywords (jsonGet f ("name".toList))
  | _ => some []

/-- `offers` normalization: a dict becomes a one-element list, a list is kept,
anything else is skipped. -/
def offersAsList : Json → List Json
  | .obj f => [.obj f]
  | .arr l => l
  | _ => []

/-- process an offers list, keeping keywords collected before an abort. -/
def processOffers : List Json → List (Str × Nat) × Bool
  | [] => ([], true)
  | o :: rest =>
      match offerKeywords1 o with
      | none => ([], false)
      | some kws =>
          let more := processOffers rest
          (kws ++ more.1, more.2)

/-- the per-item body of `extract_from_json_ld`: type check, `name`, then the
`offers`/`hasOfferingCatalog`/`itemListElement` descent; the Bool is false when
a modelled exception aborts the enclosing block. -/
def processItemFields (fields : List (Str × Json)) : List (Str × Nat) × Bool :=
  let itype := (jsonGet fields ("@type".toList)).getD (Json.str [])
  let types := match itype with | .arr l => l | t => [t]
  match checkTypes types with
  | none => ([], false)
  | some false => ([], true)
  | some true =>
      match nameKeywords (jsonGet fields ("name".toList)) with
      | none => ([], false)
      | some nameKws =>
          (["offers", "hasOfferingCatalog", "itemListElement"].map String.toList).foldl
            (fun acc key =>
              if acc.2 then
                match jsonGet fields key with
                | some v =>
                    let r := processOffers (offersAsList v)
                    (acc.1 ++ r.1, r.2)
                | none => acc
              else acc)
            (nameKws, true)

/-- the item loop of one script block: non-dict items are skipped; a modelled
exception keeps the keywords collected so far and drops the rest of the block. -/
def processItems : List Json → List (Str × Nat)
  | [] => []
  | .obj f :: rest =>
      let r := processItemFields f
      if r.2 then r.1 ++ processItems rest else r.1
  | _ :: rest => processItems rest

/-- one parsed script body: a top-level array is iterated, anything else is
wrapped in a singleton list. -/
def processScript : Json → List (Str × Nat)
  | .arr l => processItems l
  | j => processItems [j]

/-- the block loop of `extract_from_json_ld` over parse results (`none` =
missing script string or `json.JSONDecodeError`, skipped per block). -/
def jsonLdFromBlocks (blocks : List (Option Json)) : List (Str × Nat) :=
  blocks.flatMap (fun b => match b with | none => [] | some j => processScript j)

/-- `extract_from_json_ld`: scripts with `type="application/ld+json"`. -/
def extract_from_json_ld (doc : List Node) : List (Str × Nat) :=
  jsonLdFromBlocks
    (((allElems doc).filter (fun e =>
        e.tag == "script".toList &&
        e.attrs.typeAttr == some ("application/ld+json".toList))).map (fun e => e.json))

/-! ### ServicePageExtractor: lists, emphasis, fallback extractors -/

/-- the service-context phrases checked on a list's preceding heading. -/
def LIST_SERVICE_INDICATORS : List Str :=
  ["services", "offering", "solution", "product", "capability",
   "we provide", "we offer", "include", "our services",
   "what we do", "expertise"].map String.toList

/-- `find_previous_sibling([...])`: nearest preceding sibling element whose tag
is in the list, returning its children (only its text is used). -/
def findPrevSiblingTag (tags : List Str) : List Node → Option (List Node)
  | [] => none
  | Node.elem t _ _ ch :: rest =>
      if tags.contains t then some ch else findPrevSiblingTag tags rest
  | Node.text _ :: rest => findPrevSiblingTag tags rest

/-- direct child elements of a parent (for `find_all(..., recursive=False)`),
with ancestors and preceding siblings tracked. -/
def childElemsAux (chain : List Attrs) : List Node → List Node → List LocElem
  | [], _ => []
  | Node.elem t a j ch :: rest, prev =>
      ⟨chain, prev, t, a, j, ch⟩ :: childElemsAux chain rest (Node.elem t a j ch :: prev)
  | Node.text s :: rest, prev => childElemsAux chain rest (Node.text s :: prev)

/-- `extract_from_lists`: `<ul>/<ol>` in main content (nav/sidebar excluded),
direct `<li>` children, confidence 0.85 under a service-context heading else 0.75. -/
def extract_from_lists (doc : List Node) : List (Str × Nat) :=
  let mc := mainContentElems doc
  (mc.filter (fun e => e.tag == "ul".toList || e.tag == "ol".toList)).flatMap (fun lt =>
    if is_navigation_or_sidebar lt then []
    else
      let hasCtx :=
        match findPrevSiblingTag (["h2", "h3", "h4", "strong", "b"].map String.toList)
            lt.prevSibs with
        | some ch =>
            LIST_SERVICE_INDICATORS.any (fun i => isInfixB i (pyLower (getTextStrip ch)))
        | none => false
      let items := (childElemsAux (lt.attrs :: lt.chain) lt.children []).filterMap (fun li =>
        if li.tag == "li".toList then
          if is_navigation_or_sidebar li then none
          else
            let text := pyStrip (pyStripChars ['-'] (pyStripChars ['•'] (getTextStrip li.children)))
            if is_valid_offering_keyword text none then some text else none
        else none)
      items.map (fun t => (t, if hasCtx then 85 else 75)))

/-- `extract_from_strong_emphasis`: every `<strong>`, then every `<b>`. -/
def extract_from_strong_emphasis (doc : List Node) : List (Str × Nat) :=
  (["strong", "b"].map String.toList).flatMap (fun tg =>
    ((allElems doc).filter (fun e => e.tag == tg)).filterMap (fun e =>
      let text := getTextStrip e.children
      if is_valid_offering_keyword text none then some (text, 78) else none))

/-- the class/id indicators of `extract_from_service_sections`. -/
def SECTION_INDICATORS : List Str :=
  ["service", "solution", "offering", "product", "capability",
   "expertise", "practice", "specialty", "treatment", "program"].map String.toList

/-- `extract_from_service_sections` (fallback): headings that are direct
children of service-flagged `div/section/article` in main content, three per
heading level. -/
def extract_from_service_sections (doc : List Node) : List (Str × Nat) :=
  let mc := mainContentElems doc
  (mc.filter (fun e =>
      (["div", "section", "article"].map String.toList).contains e.tag)).flatMap (fun el =>
    let attrsStr := pyLower (List.intercalate [' '] (attrsTokens el.attrs))
    if SECTION_INDICATORS.any (fun i => isInfixB i attrsStr) then
      (["h2", "h3", "h4", "h5", "h6"].map String.toList).flatMap (fun tg =>
        (((childElemsAux (el.attrs :: el.chain) el.children []).filter
            (fun c => c.tag == tg)).take 3).filterMap (fun h =>
          let text := sanitize_text (getTextStrip h.children)
          if is_valid_offering_keyword text none then some (text, 75) else none))
    else [])

/-- the prose-listing indicator phrases of `extract_from_paragraphs`. -/
def PARA_INDICATORS : List Str :=
  ["we provide", "we offer", "we specialize in", "services include",
   "our services", "our offerings", "we deliver", "areas of expertise",
   "capabilities include", "solutions include"].map String.toList

/-- `re.split(r",|\sand\s", s)`: split on commas and whitespace-delimited "and". -/
def splitCommaAnd : Str → Str → List Str
  | [], acc => [acc.reverse]
  | ',' :: rest, acc => acc.reverse :: splitCommaAnd rest []
  | c :: 'a' :: 'n' :: 'd' :: w :: rem, acc =>
      if pyWs c && pyWs w then acc.reverse :: splitCommaAnd rem []
      else splitCommaAnd ('a' :: 'n' :: 'd' :: w :: rem) (c :: acc)
  | c :: rest, acc => splitCommaAnd rest (c :: acc)

/-- `text.split(indicator, 1)[1]`: the text after the first occurrence. -/
def afterFirst (pat : Str) (s : Str) : Option Str :=
  ((List.range (s.length + 1)).find? (fun i => sliceStartsWith s i pat)).map
    (fun i => s.drop (i + pat.length))

/-- `re.sub(r"\.$", "", s)`: drop a period at a `$` position. -/
def dropEndPeriod (s : Str) : Str :=
  if s.getLast? == some '.' then s.dropLast
  else if ['.', '\n'].isSuffixOf s then s.dropLast.dropLast ++ ['\n']
  else s

/-- `extract_from_paragraphs` (fallback, offering URLs only): paragraphs in
main content carrying a service-intent phrase and a comma/"and" list shape. -/
def extract_from_paragraphs (doc : List Node) (url : Str) : List (Str × Nat) :=
  if !is_offering_url url then []
  else
    let mc := mainContentElems doc
    (mc.filter (fun e => e.tag == "p".toList)).flatMap (fun pel =>
      let text := pyLower (getTextStrip pel.children)
      if !PARA_INDICATORS.any (fun i => isInfixB i text) then []
      else if !(text.contains ',') && !isInfixB (" and ".toList) text then []
      else if decide (text.length > 500) then []
      else
        match PARA_INDICATORS.find? (fun i => isInfixB i text) with
        | some ind =>
            match afterFirst ind text with
            | some listing =>
                (splitCommaAnd listing []).filterMap (fun item =>
                  let item := dropEndPeriod (sanitize_text (pyStrip item))
                  if is_valid_offering_keyword item none then some (item, 70) else none)
            | none => []
        | none => [])

/-! ### ServicePageExtractor: aggregation and deduplication -/

/-- one final keyword record `{confidence, method, url}` (confidence in
hundredths). -/
structure KwRec where
  confidence : Nat
  method : Str
  url : Str
deriving DecidableEq

/-- the dict update of `extract_keywords`: keep the higher-confidence entry,
existing keys keep their insertion position. -/
def upsertKw : List (Str × KwRec) → Str → KwRec → List (Str × KwRec)
  | [], k, r => [(k, r)]
  | (k0, r0) :: rest, k, r =>
      if k0 == k then
        if r0.confidence < r.confidence then (k0, r) :: rest else (k0, r0) :: rest
      else (k0, r0) :: upsertKw rest k r

/-- merge one extractor's candidates into the aggregate mapping. -/
def mergeKeywords (acc : List (Str × KwRec)) (method : Str) (url : Str)
    (kws : List (Str × Nat)) : List (Str × KwRec) :=
  kws.foldl (fun m kc => upsertKw m kc.1 ⟨kc.2, method, url⟩) acc

/-- `key.lower().strip()` as used by `deduplicate_keywords`. -/
def lowerStripK (k : Str) : Str := pyStrip (pyLower k)

def endsS (k : Str) : Bool := k.getLast? == some 's'

/-- case-insensitive exact duplicate test of `deduplicate_keywords`. -/
def exactDupB (a b : Str) : Bool := lowerStripK a == lowerStripK b

/-- singular/plural pair test (`rstrip('s')` based) of `deduplicate_keywords`. -/
def pluralPairB (a b : Str) : Bool :=
  lowerStripK a == rstripS (lowerStripK b) || lowerStripK b == rstripS (lowerStripK a)

/-- substring-containment test of `deduplicate_keywords`. -/
def substrPairB (a b : Str) : Bool :=
  isInfixB (lowerStripK a) (lowerStripK b) || isInfixB (lowerStripK b) (lowerStripK a)

/-- the inner loop of `deduplicate_keywords` for a fixed `key1`: walk the later
items, growing the removal set; returning with `k1` prepended models the
`break` after `key1` itself is removed. -/
def dedupInner (k1 : Str) (d1 : KwRec) : List (Str × KwRec) → List Str → List Str
  | [], rem => rem
  | (k2, d2) :: rest, rem =>
      if rem.contains k2 then dedupInner k1 d1 rest rem
      else if exactDupB k1 k2 then
        if d1.confidence < d2.confidence then k1 :: rem
        else dedupInner k1 d1 rest (k2 :: rem)
      else if pluralPairB k1 k2 then
        if endsS (lowerStripK k1) && !endsS (lowerStripK k2) then k1 :: rem
        else if endsS (lowerStripK k2) && !endsS (lowerStripK k1) then
          dedupInner k1 d1 rest (k2 :: rem)
        else dedupInner k1 d1 rest rem
      else if substrPairB k1 k2 then
        if k1.length < k2.length then k1 :: rem
        else dedupInner k1 d1 rest (k2 :: rem)
      else dedupInner k1 d1 rest rem

/-- the outer loop of `deduplicate_keywords`: removed keys are skipped. -/
def dedupOuter : List (Str × KwRec) → List Str → List Str
  | [], rem => rem
  | (k1, d1) :: rest, rem =>
      if rem.contains k1 then dedupOuter rest rem
      else dedupOuter rest (dedupInner k1 d1 rest rem)

/-- `ServicePageExtractor.deduplicate_keywords`: drop every key collected by
the pairwise scan, preserving the input order and records. -/
def deduplicate_keywords (m : List (Str × KwRec)) : List (Str × KwRec) :=
  let rem := dedupOuter m []
  m.filter (fun e => !rem.contains e.1)

/-- the primary extraction sources of `extract_keywords`, in order. -/
def primarySources (doc : List Node) : List (Str × List (Str × Nat)) :=
  [("h1".toList, extract_from_h1 doc),
   ("title".toList, extract_from_title doc),
   ("headings".toList, extract_from_headings doc),
   ("meta".toList, extract_from_meta doc),
   ("json_ld".toList, extract_from_json_ld doc),
   ("lists".toList, extract_from_lists doc),
   ("strong".toList, extract_from_strong_emphasis doc)]

/-- the aggregate mapping after the primary sources. -/
def primaryKeywords (doc : List Node) (url : Str) : List (Str × KwRec) :=
  (primarySources doc).foldl (fun acc s => mergeKeywords acc s.1 url s.2) []

/-- the aggregate mapping of `extract_keywords` before deduplication: the
primary cascade, extended by the fallback tier when it found fewer than three
keywords. -/
def aggregatedKeywords (doc : List Node) (url : Str) : List (Str × KwRec) :=
  let allK := primaryKeywords doc url
  if allK.length < 3 then
    [("service_sections".toList, extract_from_service_sections doc),
     ("paragraphs".toList, extract_from_paragraphs doc url)].foldl
      (fun acc s => mergeKeywords acc s.1 url s.2) allK
  else allK

/-- `ServicePageExtractor.extract_keywords`: primary cascade, fallback tier
when fewer than three keywords were found, then deduplication. -/
def extract_keywords (doc : List Node) (url : Str) : List (Str × KwRec) :=
  deduplicate_keywords (aggregatedKeywords doc url)

/-- a text-only element. -/
def tElem (tag : String) (txt : String) : Node :=
  Node.elem tag.toList {} none [Node.text txt.toList]

/-- document holding only the prose paragraph of the fallback test. -/
def paraDoc : List Node :=
  [tElem "p" "We offer consulting, training, and support services."]

def paraUrl : Str := "https://example.com/services".toList

/-- the same paragraph next to an H1 whose text contains "Consulting". -/
def paraH1Doc : List Node :=
  [tElem "h1" "Business Consulting",
   tElem "p" "We offer consulting, training, and support services."]

/-! ### Deduplication invariant -/

/-- one of the three near-duplicate tests of `deduplicate_keywords` fires. -/
def conflictB (a b : Str) : Bool := exactDupB a b || pluralPairB a b || substrPairB a b

/-- `k1` appears strictly before `k2` in the association list. -/
def SubPair (l : List (Str × KwRec)) (k1 : Str) (d1 : KwRec) (k2 : Str) (d2 : KwRec) : Prop :=
  ∃ pre mid post, l = pre ++ (k1, d1) :: mid ++ (k2, d2) :: post

/-- a page whose meta keywords yield two surviving keywords. -/
def metaDoc : List Node :=
  [Node.elem ("meta".toList)
    { nameAttr := some ("keywords".toList),
      contentAttr := some ("Cloud Consulting, Data Analytics".toList) } none []]

def metaUrl : Str := "https://example.com/page".toList

/-- a mapping in which the substring rule removes the shorter key. -/
def dedupDemo : List (Str × KwRec) :=
  [("Consulting".toList, ⟨95, "h1".toList, metaUrl⟩),
   ("Consulting Services".toList, ⟨78, "strong".toList, metaUrl⟩)]

/-- an offering anchor inside a `<div id="navigation">` (no class attribute). -/
def idOnlyDoc : List Node :=
  [Node.elem ("div".toList) { idAttr := some ("navigation".toList) } none
    [aElem "/services" "Services"]]

/-- an offering anchor inside a `<div class="NAVIGATION">` (upper-case class). -/
def upperClassDoc : List Node :=
  [Node.elem ("div".toList) { classes := [("NAVIGATION".toList)] } none
    [aElem "/services" "Services"]]

/-- an offering anchor inside a `<div class="main-menu">`. -/
def classMenuDoc : List Node :=
  [Node.elem ("div".toList) { classes := [("main-menu".toList)] } none
    [aElem "/services" "Services"]]

/-! ### Basic lemmas about the string primitives -/

lemma isInfixB_iff {t s : Str} : isInfixB t s = true ↔ t <:+: s := by
  unfold isInfixB
  rw [List.any_eq_true]
  constructor
  · rintro ⟨i, -, hp⟩
    exact (List.IsPrefix.isInfix ( List.isPrefixOf_iff_prefix.mp hp)).trans
      (List.drop_suffix i s).isInfix
  · rintro ⟨a, b, hab⟩
    refine ⟨a.length, List.mem_range.mpr ?_, List.isPrefixOf_iff_prefix.mpr ?_⟩
    · have : a.length ≤ s.length := by
        subst hab; simp [List.length_append]
      omega
    · refine ⟨b, ?_⟩
      have : s.drop a.length = t ++ b := by
        subst hab
        rw [List.append_assoc, List.drop_left]
      rw [this]

lemma dropEndWhile_isPref (p : Char → Bool) (s : Str) : dropEndWhile p s <+: s := by
  have h := List.dropWhile_suffix (l := s.reverse) p
  have h2 : (s.reverse.dropWhile p).reverse.reverse <:+ s.reverse := by
    rwa [List.reverse_reverse]
  exact List.reverse_suffix.mp h2

lemma pyStrip_isInf (s : Str) : pyStrip s <:+: s :=
  ((dropEndWhile_isPref pyWs (s.dropWhile pyWs)).isInfix).trans
    (List.dropWhile_suffix pyWs).isInfix

/-- a nonempty `dropEndWhile` result ends in a character violating `p`. -/
lemma dropEndWhile_getLast (p : Char → Bool) (s : Str) (h : dropEndWhile p s ≠ []) :
    ∀ c ∈ (dropEndWhile p s).getLast?, p c = false := by
  intro c hc
  unfold dropEndWhile at h hc
  rw [List.getLast?_reverse] at hc
  have hne : s.reverse.dropWhile p ≠ [] := by
    intro he; rw [he] at h; exact h rfl
  have hp := List.head_dropWhile_not p s.reverse hne
  rw [List.head?_eq_head hne, Option.mem_some_iff] at hc
  rw [← hc]
  exact hp

lemma prefix_head_eq {l₁ l₂ : Str} (h : l₁ <+: l₂) (hne : l₁ ≠ []) :
    l₂.head? = l₁.head? := by
  obtain ⟨t, rfl⟩ := h
  rw [List.head?_append]
  obtain ⟨x, xs, rfl⟩ := List.exists_cons_of_ne_nil hne
  rfl

/-- a nonempty stripped string starts with a non-whitespace character. -/
lemma pyStrip_head (s : Str) : ∀ c ∈ (pyStrip s).head?, pyWs c = false := by
  intro c hc
  have hne : pyStrip s ≠ [] := by
    intro he; rw [he] at hc; exact (Option.not_mem_none c) hc
  have hpre := dropEndWhile_isPref pyWs (s.dropWhile pyWs)
  have hxne : s.dropWhile pyWs ≠ [] := by
    intro he
    rw [pyStrip, he] at hne
    exact hne rfl
  have hh := prefix_head_eq hpre hne
  rw [pyStrip] at hc
  rw [← hh] at hc
  have := List.head_dropWhile_not pyWs s hxne
  rw [List.head?_eq_head hxne, Option.mem_some_iff] at hc
  rw [← hc]
  exact this

/-- a nonempty stripped string ends with a non-whitespace character. -/
lemma pyStrip_getLast (s : Str) : ∀ c ∈ (pyStrip s).getLast?, pyWs c = false := by
  intro c hc
  have hne : pyStrip s ≠ [] := by
    intro he; rw [he] at hc; exact (Option.not_mem_none c) hc
  exact dropEndWhile_getLast pyWs (s.dropWhile pyWs) hne c hc

/-- appending in front of a block with a non-`p` head survives `dropWhile`. -/
lemma dropWhile_append_keeps {p : Char → Bool} {c : Str} (hc : c ≠ [])
    (hh : ∀ x ∈ c.head?, p x = false) (a : Str) :
    ∃ a', List.dropWhile p (a ++ c) = a' ++ c := by
  rw [List.dropWhile_append]
  split
  · refine ⟨[], ?_⟩
    obtain ⟨x, xs, rfl⟩ := List.exists_cons_of_ne_nil hc
    rw [List.dropWhile_cons, if_neg]
    · rfl
    · rw [hh x rfl]
      simp
  · exact ⟨_, rfl⟩

/-- a block with non-whitespace endpoints that is an infix of `s` is still an
infix of `pyStrip s`. -/
lemma isInf_pyStrip_of_isInf {t s : Str} (ht : t ≠ [])
    (hh : ∀ c ∈ t.head?, pyWs c = false) (hl : ∀ c ∈ t.getLast?, pyWs c = false)
    (h : t <:+: s) : t <:+: pyStrip s := by
  obtain ⟨a, b, rfl⟩ := h
  have htb : t ++ b ≠ [] := by
    obtain ⟨x, xs, rfl⟩ := List.exists_cons_of_ne_nil ht
    simp
  have hhtb : ∀ x ∈ (t ++ b).head?, pyWs x = false := by
    intro x hx
    obtain ⟨y, ys, rfl⟩ := List.exists_cons_of_ne_nil ht
    exact hh x hx
  obtain ⟨a', ha⟩ := dropWhile_append_keeps htb hhtb a
  have htr : t.reverse ++ a'.reverse ≠ [] := by
    obtain ⟨x, xs, rfl⟩ := List.exists_cons_of_ne_nil ht
    simp
  have hhr : ∀ x ∈ (t.reverse ++ a'.reverse).head?, pyWs x = false := by
    intro x hx
    rw [List.head?_append] at hx
    have htrne : t.reverse ≠ [] := by
      intro he
      exact ht (by simpa using congrArg List.reverse he)
    have : t.reverse.head? = some (t.reverse.head htrne) := List.head?_eq_head htrne
    rw [this] at hx
    simp only [Option.or_some, Option.mem_some_iff] at hx
    apply hl
    rw [← List.head?_reverse, this, ← hx]
    rfl
  obtain ⟨b', hb⟩ := dropWhile_append_keeps htr hhr b.reverse
  refine ⟨a', b'.reverse, ?_⟩
  unfold pyStrip dropEndWhile
  rw [show a ++ t ++ b = a ++ (t ++ b) from List.append_assoc a t b, ha]
  have : (a' ++ (t ++ b)).reverse = b.reverse ++ (t.reverse ++ a'.reverse) := by
    simp [List.reverse_append, List.append_assoc]
  rw [this, hb]
  simp [List.reverse_append, List.append_assoc]

lemma rstripS_isPref (x : Str) : rstripS x <+: x := dropEndWhile_isPref _ x

lemma endsS_rstripS (x : Str) : rstripS x = [] ∨ endsS (rstripS x) = false := by
  by_cases h : rstripS x = []
  · exact Or.inl h
  · right
    have := dropEndWhile_getLast (fun c => c == 's') x h
    unfold endsS
    have hne : (rstripS x).getLast? ≠ none := by
      rw [ne_eq, List.getLast?_eq_none_iff]
      exact h
    obtain ⟨c, hc⟩ := Option.ne_none_iff_exists'.mp hne
    rw [hc]
    have := this c hc
    simp only [beq_eq_false_iff_ne, ne_eq] at this ⊢
    simp [this]

lemma rstripS_eq_self {x : Str} (h : endsS x = false) : rstripS x = x := by
  by_cases hx : x = []
  · simp [rstripS, dropEndWhile, hx]
  · have hrne : x.reverse ≠ [] := by
      intro he; exact hx (by simpa using congrArg List.reverse he)
    obtain ⟨c, l, hrev⟩ := List.exists_cons_of_ne_nil hrne
    have hlast : x.getLast? = some c := by
      rw [← List.head?_reverse, hrev]; rfl
    have hcs : (c == 's') = false := by
      unfold endsS at h
      rw [hlast] at h
      simpa using h
    unfold rstripS dropEndWhile
    rw [hrev, List.dropWhile_cons, hcs]
    simp only [Bool.false_eq_true, if_false]
    rw [← hrev, List.reverse_reverse]

lemma exactDupB_comm (a b : Str) : exactDupB a b = exactDupB b a := by
  unfold exactDupB
  rw [Bool.eq_iff_iff]
  simp only [beq_iff_eq]
  exact eq_comm

lemma pluralPairB_comm (a b : Str) : pluralPairB a b = pluralPairB b a :=
  Bool.or_comm _ _

lemma substrPairB_comm (a b : Str) : substrPairB a b = substrPairB b a :=
  Bool.or_comm _ _

lemma conflictB_symm {a b : Str} (h : conflictB a b = false) : conflictB b a = false := by
  unfold conflictB at h ⊢
  rw [exactDupB_comm b a, pluralPairB_comm b a, substrPairB_comm b a]
  exact h

/-- the third branch of the plural rule (neither key removed) is unreachable
when the keys are not exact duplicates. -/
lemma plural_branch_impossible {a b : Str} (hp : pluralPairB a b = true)
    (he : exactDupB a b = false)
    (hs : endsS (lowerStripK a) = endsS (lowerStripK b)) : False := by
  unfold pluralPairB at hp
  unfold exactDupB at he
  rw [Bool.or_eq_true, beq_iff_eq, beq_iff_eq] at hp
  rw [beq_eq_false_iff_ne] at he
  by_cases hx : endsS (lowerStripK a) = false
  · have hy : endsS (lowerStripK b) = false := by rw [← hs]; exact hx
    rcases hp with h | h
    · exact he (by rw [h, rstripS_eq_self hy])
    · exact he (by rw [← rstripS_eq_self hx, ← h])
  · have hx' : endsS (lowerStripK a) = true := by
      cases hxx : endsS (lowerStripK a)
      · exact absurd hxx hx
      · rfl
    have hy' : endsS (lowerStripK b) = true := by rw [← hs]; exact hx'
    rcases hp with h | h
    · rcases endsS_rstripS (lowerStripK b) with hnil | hfalse
      · rw [h, hnil] at hx'
        simp [endsS] at hx'
      · rw [h, hfalse] at hx'
        exact absurd hx' (by simp)
    · rcases endsS_rstripS (lowerStripK a) with hnil | hfalse
      · rw [h, hnil] at hy'
        simp [endsS] at hy'
      · rw [h, hfalse] at hy'
        exact absurd hy' (by simp)

lemma mem_dedupInner {k1 : Str} {d1 : KwRec} :
    ∀ (rest : List (Str × KwRec)) (rem : List Str), rem ⊆ dedupInner k1 d1 rest rem := by
  intro rest
  induction rest with
  | nil => intro rem; rw [dedupInner]; exact fun x hx => hx
  | cons hd tl ih =>
      intro rem
      obtain ⟨k2, d2⟩ := hd
      rw [dedupInner]
      split
      · exact ih rem
      · split
        · split
          · exact List.subset_cons_self k1 rem
          · exact (List.subset_cons_self k2 rem).trans (ih (k2 :: rem))
        · split
          · split
            · exact List.subset_cons_self k1 rem
            · split
              · exact (List.subset_cons_self k2 rem).trans (ih (k2 :: rem))
              · exact ih rem
          · split
            · split
              · exact List.subset_cons_self k1 rem
              · exact (List.subset_cons_self k2 rem).trans (ih (k2 :: rem))
            · exact ih rem

lemma mem_dedupOuter :
    ∀ (items : List (Str × KwRec)) (rem : List Str), rem ⊆ dedupOuter items rem := by
  intro items
  induction items with
  | nil => intro rem; rw [dedupOuter]; exact fun x hx => hx
  | cons hd tl ih =>
      intro rem
      obtain ⟨k1, d1⟩ := hd
      rw [dedupOuter]
      split
      · exact ih rem
      · exact (mem_dedupInner tl rem).trans (ih _)

lemma dedupInner_no_conflict {k1 : Str} {d1 : KwRec} :
    ∀ (rest : List (Str × KwRec)) (rem : List Str) {k2 : Str} {d2 : KwRec},
      (k2, d2) ∈ rest →
      k1 ∉ dedupInner k1 d1 rest rem →
      k2 ∉ dedupInner k1 d1 rest rem →
      conflictB k1 k2 = false := by
  intro rest
  induction rest with
  | nil => intro rem k2 d2 hmem; exact absurd hmem (List.not_mem_nil _)
  | cons hd tl ih =>
      intro rem k2 d2 hmem h1 h2
      obtain ⟨k2', d2'⟩ := hd
      by_cases hc : rem.contains k2'
      · rw [dedupInner, if_pos hc] at h1 h2
        rcases List.mem_cons.mp hmem with heq | htl
        · obtain ⟨hk, hd⟩ := Prod.mk.injEq .. ▸ heq
          subst hk
          exact absurd (mem_dedupInner tl rem (by simpa using hc)) h2
        · exact ih rem htl h1 h2
      · rw [dedupInner, if_neg hc] at h1 h2
        by_cases he : exactDupB k1 k2'
        · rw [if_pos he] at h1 h2
          by_cases hlt : d1.confidence < d2'.confidence
          · rw [if_pos hlt] at h1
            exact absurd (List.mem_cons_self k1 rem) h1
          · rw [if_neg hlt] at h1 h2
            rcases List.mem_cons.mp hmem with heq | htl
            · obtain ⟨hk, hdd⟩ := Prod.mk.injEq .. ▸ heq
              subst hk
              exact absurd (mem_dedupInner tl (k2 :: rem) (List.mem_cons_self k2 rem)) h2
            · exact ih (k2' :: rem) htl h1 h2
        · rw [if_neg he] at h1 h2
          by_cases hp : pluralPairB k1 k2'
          · rw [if_pos hp] at h1 h2
            by_cases hb : (endsS (lowerStripK k1) && !endsS (lowerStripK k2')) = true
            · rw [if_pos hb] at h1
              exact absurd (List.mem_cons_self k1 rem) h1
            · rw [if_neg hb] at h1 h2
              by_cases hb2 : (endsS (lowerStripK k2') && !endsS (lowerStripK k1)) = true
              · rw [if_pos hb2] at h1 h2
                rcases List.mem_cons.mp hmem with heq | htl
                · obtain ⟨hk, hdd⟩ := Prod.mk.injEq .. ▸ heq
                  subst hk
                  exact absurd (mem_dedupInner tl (k2 :: rem) (List.mem_cons_self k2 rem)) h2
                · exact ih (k2' :: rem) htl h1 h2
              · rw [if_neg hb2] at h1 h2
                rcases List.mem_cons.mp hmem with heq | htl
                · obtain ⟨hk, hdd⟩ := Prod.mk.injEq .. ▸ heq
                  subst hk
                  have hs : endsS (lowerStripK k1) = endsS (lowerStripK k2) := by
                    cases hx : endsS (lowerStripK k1) <;>
                      cases hy : endsS (lowerStripK k2) <;> simp_all
                  exact absurd (plural_branch_impossible hp
                    (Bool.eq_false_iff.mpr he) hs) (fun f => f)
                · exact ih rem htl h1 h2
          · rw [if_neg hp] at h1 h2
            by_cases hsb : substrPairB k1 k2'
            · rw [if_pos hsb] at h1 h2
              by_cases hlen : k1.length < k2'.length
              · rw [if_pos hlen] at h1
                exact absurd (List.mem_cons_self k1 rem) h1
              · rw [if_neg hlen] at h1 h2
                rcases List.mem_cons.mp hmem with heq | htl
                · obtain ⟨hk, hdd⟩ := Prod.mk.injEq .. ▸ heq
                  subst hk
                  exact absurd (mem_dedupInner tl (k2 :: rem) (List.mem_cons_self k2 rem)) h2
                · exact ih (k2' :: rem) htl h1 h2
            · rw [if_neg hsb] at h1 h2
              rcases List.mem_cons.mp hmem with heq | htl
              · obtain ⟨hk, hdd⟩ := Prod.mk.injEq .. ▸ heq
                subst hk
                unfold conflictB
                rw [Bool.eq_false_iff.mpr he, Bool.eq_false_iff.mpr hp,
                  Bool.eq_false_iff.mpr hsb]
                rfl
              · exact ih rem htl h1 h2

lemma dedupOuter_no_conflict :
    ∀ (items : List (Str × KwRec)) (rem : List Str) {k1 d1 k2 d2},
      SubPair items k1 d1 k2 d2 →
      k1 ∉ dedupOuter items rem →
      k2 ∉ dedupOuter items rem →
      conflictB k1 k2 = false := by
  intro items
  induction items with
  | nil =>
      intro rem k1 d1 k2 d2 hsp
      obtain ⟨pre, mid, post, heq⟩ := hsp
      exact absurd heq (by simp)
  | cons hd tl ih =>
      intro rem k1 d1 k2 d2 hsp h1 h2
      obtain ⟨pre, mid, post, heq⟩ := hsp
      cases pre with
      | nil =>
          rw [List.nil_append, List.cons_append] at heq
          injection heq with hhd htl
          subst hhd; subst htl
          rw [dedupOuter] at h1 h2
          by_cases hc : rem.contains k1
          · rw [if_pos hc] at h1
            exact absurd (mem_dedupOuter _ rem (by simpa using hc)) h1
          · rw [if_neg hc] at h1 h2
            have hk1 : k1 ∉ dedupInner k1 d1 (mid ++ (k2, d2) :: post) rem :=
              fun hm => h1 (mem_dedupOuter _ _ hm)
            have hk2 : k2 ∉ dedupInner k1 d1 (mid ++ (k2, d2) :: post) rem :=
              fun hm => h2 (mem_dedupOuter _ _ hm)
            exact dedupInner_no_conflict _ rem
              (List.mem_append_right mid (List.mem_cons_self _ _)) hk1 hk2
      | cons p pre' =>
          rw [List.cons_append, List.cons_append] at heq
          injection heq with hhd htl
          have hsp' : SubPair tl k1 d1 k2 d2 := ⟨pre', mid, post, htl⟩
          obtain ⟨kp, dp⟩ := hd
          rw [dedupOuter] at h1 h2
          by_cases hc : rem.contains kp
          · rw [if_pos hc] at h1 h2
            exact ih rem hsp' h1 h2
          · rw [if_neg hc] at h1 h2
            exact ih _ hsp' h1 h2

lemma pair_order {l : List (Str × KwRec)} {k1 d1 k2 d2}
    (h1 : (k1, d1) ∈ l) (h2 : (k2, d2) ∈ l) (hne : k1 ≠ k2) :
    SubPair l k1 d1 k2 d2 ∨ SubPair l k2 d2 k1 d1 := by
  induction l with
  | nil => exact absurd h1 (List.not_mem_nil _)
  | cons hd tl ih =>
      rcases List.mem_cons.mp h1 with he1 | ht1
      · have ht2 : (k2, d2) ∈ tl := by
          rcases List.mem_cons.mp h2 with he2 | ht2
          · exact absurd (congrArg Prod.fst (he1.trans he2.symm)) hne
          · exact ht2
        obtain ⟨s, t, rfl⟩ := List.append_of_mem ht2
        refine Or.inl ⟨[], s, t, ?_⟩
        rw [he1]
        simp [List.append_assoc]
      · rcases List.mem_cons.mp h2 with he2 | ht2
        · obtain ⟨s, t, rfl⟩ := List.append_of_mem ht1
          refine Or.inr ⟨[], s, t, ?_⟩
          rw [he2]
          simp [List.append_assoc]
        · rcases ih ht1 ht2 with ⟨pre, mid, post, heq⟩ | ⟨pre, mid, post, heq⟩
          · exact Or.inl ⟨hd :: pre, mid, post, by rw [heq]; simp [List.append_assoc]⟩
          · exact Or.inr ⟨hd :: pre, mid, post, by rw [heq]; simp [List.append_assoc]⟩

/-- any two distinct surviving keys of `deduplicate_keywords` are free of all
three near-duplicate relations. -/
lemma dedup_survivors_no_conflict {m : List (Str × KwRec)} {k1 d1 k2 d2}
    (h1 : (k1, d1) ∈ deduplicate_keywords m)
    (h2 : (k2, d2) ∈ deduplicate_keywords m)
    (hne : k1 ≠ k2) : conflictB k1 k2 = false := by
  unfold deduplicate_keywords at h1 h2
  rw [List.mem_filter] at h1 h2
  obtain ⟨hm1, hr1⟩ := h1
  obtain ⟨hm2, hr2⟩ := h2
  have hn1 : k1 ∉ dedupOuter m [] := by simpa using hr1
  have hn2 : k2 ∉ dedupOuter m [] := by simpa using hr2
  rcases pair_order hm1 hm2 hne with hsp | hsp
  · exact dedupOuter_no_conflict m [] hsp hn1 hn2
  · exact conflictB_symm (dedupOuter_no_conflict m [] hsp hn2 hn1)

/-- a case-insensitive containment between two keys implies the containment
the dedup scan actually tests (on lowercased *and stripped* keys). -/
lemma infix_lower_imp {k1 k2 : Str} (h : pyLower k1 <:+: pyLower k2) :
    isInfixB (lowerStripK k1) (lowerStripK k2) = true := by
  unfold lowerStripK
  by_cases ht : pyStrip (pyLower k1) = []
  · rw [ht]
    exact isInfixB_iff.mpr List.nil_infix
  · exact isInfixB_iff.mpr (isInf_pyStrip_of_isInf ht (pyStrip_head _)
      (pyStrip_getLast _) ((pyStrip_isInf (pyLower k1)).trans h))

/-- unfolding `conflictB k1 k2 = false` into the claim-level statements:
no case-insensitive equality, no `rstrip('s')` plural pair, no
case-insensitive substring containment in either direction. -/
lemma conflict_false_props {k1 k2 : Str} (h : conflictB k1 k2 = false) :
    pyLower k1 ≠ pyLower k2 ∧
    pyLower k1 ≠ rstripS (pyLower k2) ∧
    pyLower k2 ≠ rstripS (pyLower k1) ∧
    ¬ (pyLower k1 <:+: pyLower k2) ∧
    ¬ (pyLower k2 <:+: pyLower k1) := by
  unfold conflictB at h
  simp only [Bool.or_eq_false_iff] at h
  obtain ⟨⟨-, -⟩, hsub⟩ := h
  unfold substrPairB at hsub
  simp only [Bool.or_eq_false_iff] at hsub
  obtain ⟨hs1, hs2⟩ := hsub
  have hi1 : ¬ (pyLower k1 <:+: pyLower k2) := by
    intro hx
    rw [infix_lower_imp hx] at hs1
    exact absurd hs1 (by simp)
  have hi2 : ¬ (pyLower k2 <:+: pyLower k1) := by
    intro hx
    rw [infix_lower_imp hx] at hs2
    exact absurd hs2 (by simp)
  refine ⟨?_, ?_, ?_, hi1, hi2⟩
  · intro he
    exact hi1 (he ▸ List.infix_refl (pyLower k1))
  · intro he
    exact hi1 ((he ▸ rstripS_isPref (pyLower k2)).isInfix)
  · intro he
    exact hi2 ((he ▸ rstripS_isPref (pyLower k1)).isInfix)

/-- C1: every mapping returned by the offering-keyword extraction pipeline
(`ServicePageExtractor.extract_keywords`, which ends by applying
`deduplicate_keywords`) contains no two distinct keys that are
case-insensitively equal, none that equals another with trailing "s" removed
(singular/plural pair), and none that is a case-insensitive substring of
another (either direction). -/
theorem claim1_dedup_invariant (doc : List Node) (url : Str) (k1 k2 : Str)
    (r1 r2 : KwRec)
    (h1 : (k1, r1) ∈ extract_keywords doc url)
    (h2 : (k2, r2) ∈ extract_keywords doc url)
    (hne : k1 ≠ k2) :
    pyLower k1 ≠ pyLower k2 ∧
    pyLower k1 ≠ rstripS (pyLower k2) ∧
    pyLower k2 ≠ rstripS (pyLower k1) ∧
    ¬ (pyLower k1 <:+: pyLower k2) ∧
    ¬ (pyLower k2 <:+: pyLower k1) :=
  conflict_false_props (dedup_survivors_no_conflict h1 h2 hne)

/-- witness for C1 at a concrete document: the two surviving keys of `metaDoc`
satisfy every clause of the dedup invariant. -/
theorem claim1_witness :
    pyLower ("Cloud Consulting".toList) ≠ pyLower ("Data Analytics".toList) ∧
    pyLower ("Cloud Consulting".toList) ≠ rstripS (pyLower ("Data Analytics".toList)) ∧
    pyLower ("Data Analytics".toList) ≠ rstripS (pyLower ("Cloud Consulting".toList)) ∧
    ¬ (pyLower ("Cloud Consulting".toList) <:+: pyLower ("Data Analytics".toList)) ∧
    ¬ (pyLower ("Data Analytics".toList) <:+: pyLower ("Cloud Consulting".toList)) :=
  claim1_dedup_invariant metaDoc metaUrl ("Cloud Consulting".toList)
    ("Data Analytics".toList)
    ⟨85, "meta".toList, metaUrl⟩ ⟨85, "meta".toList, metaUrl⟩
    (by decide) (by decide) (by decide)

/-- C10: `deduplicate_keywords` returns a restriction of its input — every
surviving key carries exactly the `{confidence, method, url}` record it had in
the input mapping; no key is added, renamed, or updated. -/
theorem claim10_dedup_restriction (m : List (Str × KwRec)) (k : Str) (v : KwRec)
    (h : (k, v) ∈ deduplicate_keywords m) : (k, v) ∈ m := by
  unfold deduplicate_keywords at h
  exact (List.mem_filter.mp h).1

/-- witness for C10: the surviving entry of `dedupDemo` is an entry of the
input, with its record unchanged. -/
theorem claim10_witness :
    ("Consulting Services".toList, (⟨78, "strong".toList, metaUrl⟩ : KwRec)) ∈ dedupDemo :=
  claim10_dedup_restriction dedupDemo ("Consulting Services".toList)
    ⟨78, "strong".toList, metaUrl⟩ (by decide)

/-- C7: `extract_from_json_ld` never fails for content-shape reasons: a script
block whose string is missing or fails to parse as JSON (a `none` block)
is skipped, and the names extracted from the remaining well-formed blocks are
exactly those extracted with the malformed block absent. -/
theorem claim7_jsonld_robust (pre post : List (Option Json)) :
    jsonLdFromBlocks (pre ++ none :: post) = jsonLdFromBlocks (pre ++ post) := by
  unfold jsonLdFromBlocks
  rw [List.flatMap_append, List.flatMap_append, List.flatMap_cons]
  rfl

/-- C8: `normalize_keyword` maps "Consulting & Advisory" and
"consulting and advisory" to the same normalized string
"consulting and advisory". -/
theorem claim8_normalize_roundtrip :
    normalize_keyword ("Consulting & Advisory".toList) = "consulting and advisory".toList ∧
    normalize_keyword ("consulting and advisory".toList) = "consulting and advisory".toList := by
  constructor
  · decide
  · decide

/-- C9: `is_valid_offering_keyword` checks the 3–80 length bound on the raw
input before stripping: the 4-character input " AI " is accepted (its stripped
form "AI" reaches the acronym rule), while the bare 2-character "AI" fails the
raw length bound and is rejected. -/
theorem claim9_rawlength_boundary :
    is_valid_offering_keyword (" AI ".toList) none = true ∧
    is_valid_offering_keyword ("AI".toList) none = false := by
  constructor
  · decide
  · decide

/-- C2: a single-word candidate that passes the length and exclusion rules but
contains no offering-indicator substring, has no hyphen, and is at most ten
characters long is rejected without an extraction method, and the identical
text is accepted when the extraction method is "offering_card". -/
theorem claim2_single_word_gate (t : Str)
    (hlen3 : 3 ≤ t.length) (hlen80 : t.length ≤ 80)
    (hwc : (pyWords (pyStrip t)).length = 1)
    (hgen : GENERIC_TERMS.any (fun g => g == pyLower (pyStrip t)) = false)
    (hexc : excludePatternsMatch (pyStrip t) = false)
    (halpha : (pyStrip t).any isAlphaA = true)
    (hind : hasOfferingIndicator (pyLower (pyStrip t)) = false)
    (hhyph : (pyStrip t).contains '-' = false)
    (hshort : (pyStrip t).length ≤ 10) :
    is_valid_offering_keyword t none = false ∧
    is_valid_offering_keyword t (some ("offering_card".toList)) = true := by
  have hne : t.isEmpty = false := by
    cases t with
    | nil => simp at hlen3
    | cons a l => rfl
  have hc1 : (t.isEmpty || decide (t.length < 3) || decide (t.length > 80)) = false := by
    rw [hne]
    simp only [Bool.false_or, Bool.or_eq_false_iff, decide_eq_false_iff_not]
    omega
  constructor
  · unfold is_valid_offering_keyword
    rw [if_neg (by rw [hc1]; exact Bool.false_ne_true)]
    simp only [hwc, hgen, hexc, halpha, hind, hhyph]
    simp [hshort, Nat.not_lt.mpr hshort]
  · unfold is_valid_offering_keyword
    rw [if_neg (by rw [hc1]; exact Bool.false_ne_true)]
    simp only [hwc, hgen, hexc, halpha, hind, hhyph]
    simp

/-- witness for C2 at the spec's example "updates". -/
theorem claim2_witness :
    is_valid_offering_keyword ("updates".toList) none = false ∧
    is_valid_offering_keyword ("updates".toList) (some ("offering_card".toList)) = true :=
  claim2_single_word_gate ("updates".toList) (by decide) (by decide) (by decide)
    (by decide) (by decide) (by decide) (by decide) (by decide) (by decide)

/-- C3: on the homepage `<nav>` with anchors `/services`,
`/services/cloud-migration` and `/blog/news` and base `https://example.com`,
`find_service_links` returns exactly the services link classified as a listing
page and the cloud-migration link classified as a detail page, in document
order, excluding `/blog/news`; and in general `is_offering_url` returns false
for every URL whose lowercased path contains an exclusion-vocabulary
substring — the exclusion check runs first. -/
theorem claim3_link_classification :
    (find_service_links demoNavDoc ("https://example.com".toList) 50 =
      [⟨"https://example.com/services".toList, "service_listing".toList, "Services".toList⟩,
       ⟨"https://example.com/services/cloud-migration".toList, "service_detail".toList,
        "Cloud".toList⟩]) ∧
    (∀ (url e : Str), e ∈ NAV_EXCLUDE_PATTERNS →
      isInfixB e (pyLower (urlPath url)) = true →
      is_offering_url url = false) := by
  constructor
  · decide
  · intro url e he hm
    unfold is_offering_url
    rw [if_pos]
    rw [List.any_eq_true]
    exact ⟨e, he, hm⟩

/-- witness for C3's general clause: a URL whose path contains both the
exclusion substring "/blog" and the inclusion substring "services" is not an
offering URL. -/
theorem claim3_witness :
    is_offering_url ("https://example.com/services/blog".toList) = false :=
  claim3_link_classification.2 ("https://example.com/services/blog".toList)
    ("/blog".toList) (by decide) (by decide)

/-- counterexample to C4: the claim says an offering link appearing only inside
an element whose *id* carries a navigation keyword, or whose class carries it
in a different letter case, is still returned — but `find_service_links` only
matches the `class` attribute against a case-sensitive regex, so both
documents yield no links at all. -/
theorem claim4_counterexample :
    find_service_links idOnlyDoc ("https://example.com".toList) 50 = [] ∧
    find_service_links upperClassDoc ("https://example.com".toList) 50 = [] := by
  constructor
  · decide
  · decide

/-- C4 (amended): the classifier scans anchors of the semantic
`nav/header/main/article` tags and of elements whose *class* attribute
matches the navigation/menu/content regex case-sensitively; a link inside a
class-matched element is returned, while a link only inside an id-matched
element or a differently-cased class is not. -/
theorem claim4_class_only_scan :
    find_service_links classMenuDoc ("https://example.com".toList) 50 =
      [⟨"https://example.com/services".toList, "service_listing".toList,
        "Services".toList⟩] ∧
    find_service_links idOnlyDoc ("https://example.com".toList) 50 = [] ∧
    find_service_links upperClassDoc ("https://example.com".toList) 50 = [] := by
  refine ⟨?_, ?_, ?_⟩
  · decide
  · decide
  · decide

/-- counterexample to C6: `paraH1Doc` satisfies the claim's premises — its
primary extractors yield one keyword (fewer than three) and it contains the
paragraph "We offer consulting, training, and support services." on a URL
containing "/services" — yet the final result does not contain "consulting"
at confidence 0.70: the fallback candidate is merged away by the substring
deduplication against the surviving H1 keyword "Business Consulting". -/
theorem claim6_counterexample :
    (primaryKeywords paraH1Doc paraUrl).length = 1 ∧
    (extract_keywords paraH1Doc paraUrl).find?
      (fun e => e.1 == "consulting".toList) = none ∧
    extract_keywords paraH1Doc paraUrl =
      [("Business Consulting".toList, ⟨95, "h1".toList, paraUrl⟩),
       ("training".toList, ⟨70, "paragraphs".toList, paraUrl⟩),
       ("support services".toList, ⟨70, "paragraphs".toList, paraUrl⟩)] := by
  refine ⟨?_, ?_, ?_⟩
  · decide
  · decide
  · decide

/-- C6 (amended): when the primary extractors yield fewer than three keywords,
the fallback tier engages and the prose paragraph
"We offer consulting, training, and support services." on a "/services" URL
contributes "consulting", "training" and "support services" at confidence
0.70; they all appear in the final mapping when no other surviving keyword
collides with them — for the document containing only that paragraph the
result is exactly these three records. -/
theorem claim6_prose_fallback :
    (primaryKeywords paraDoc paraUrl).length < 3 ∧
    extract_from_paragraphs paraDoc paraUrl =
      [("consulting".toList, 70), ("training".toList, 70),
       ("support services".toList, 70)] ∧
    extract_keywords paraDoc paraUrl =
      [("consulting".toList, ⟨70, "paragraphs".toList, paraUrl⟩),
       ("training".toList, ⟨70, "paragraphs".toList, paraUrl⟩),
       ("support services".toList, ⟨70, "paragraphs".toList, paraUrl⟩)] := by
  refine ⟨?_, ?_, ?_⟩
  · decide
  · decide
  · decide

/-! ### Lemmas for the link-classifier invariants -/

lemma takeWhile_append_all {p : Char → Bool} {a : Str} (h : ∀ c ∈ a, p c = true)
    (b : Str) : List.takeWhile p (a ++ b) = a ++ List.takeWhile p b := by
  induction a with
  | nil => rfl
  | cons x xs ih =>
      rw [List.cons_append, List.takeWhile_cons, h x (List.mem_cons_self x xs)]
      simp only [if_true, List.cons_append, List.cons.injEq, true_and]
      exact ih (fun c hc => h c (List.mem_cons_of_mem x hc))

lemma takeWhile_append_stop {p : Char → Bool} {a : Str} {c : Char}
    (ha : ∀ x ∈ a, p x = true) (hc : p c = false) (b : Str) :
    List.takeWhile p (a ++ c :: b) = a := by
  rw [takeWhile_append_all ha, List.takeWhile_cons, hc]
  simp

lemma cleanUrl_isPref (u : Str) : cleanUrl u <+: u :=
  (List.takeWhile_prefix _).trans (List.takeWhile_prefix _)

lemma mem_cleanUrl_no_hash {u : Str} : ∀ c ∈ cleanUrl u, c ≠ '#' ∧ c ≠ '?' := by
  intro c hc
  have h2 := List.mem_takeWhile_imp hc
  have h1 : c ∈ u.takeWhile (fun c => c != '#') :=
    (List.takeWhile_prefix _).subset hc
  constructor
  · have := List.mem_takeWhile_imp h1
    simpa using this
  · simpa using h2

lemma takeWhile_sub {p q : Char → Bool} (hpq : ∀ c, p c = true → q c = true) :
    ∀ l : Str, List.takeWhile p (List.takeWhile q l) = List.takeWhile p l := by
  intro l
  induction l with
  | nil => rfl
  | cons x xs ih =>
      cases hq : q x
      · have hp : p x = false := by
          cases hp : p x
          · rfl
          · rw [hpq x hp] at hq; exact absurd hq (by simp)
        rw [List.takeWhile_cons, hq, List.takeWhile_cons, hp]
        simp
      · rw [List.takeWhile_cons, hq]
        simp only [if_true]
        rw [List.takeWhile_cons, List.takeWhile_cons]
        cases hp : p x
        · simp
        · simp only [if_true]
          rw [ih]

/-- the netloc-stopping scan is unaffected by fragment/query stripping. -/
lemma takeWhile_noPSH_cleanUrl (u : Str) :
    List.takeWhile (fun c => c != '/' && c != '?' && c != '#') (cleanUrl u) =
    List.takeWhile (fun c => c != '/' && c != '?' && c != '#') u := by
  unfold cleanUrl
  rw [takeWhile_sub (q := fun c => c != '?'), takeWhile_sub (q := fun c => c != '#')]
  · intro c hc
    simp only [Bool.and_eq_true] at hc
    exact hc.2
  · intro c hc
    simp only [Bool.and_eq_true] at hc
    exact hc.1.2

lemma takeWhile_prefix_stable {p : Char → Bool} :
    ∀ (x t : Str), (∃ c ∈ x, p c = false) →
      List.takeWhile p (x ++ t) = List.takeWhile p x := by
  intro x
  induction x with
  | nil => rintro t ⟨c, hc, -⟩; exact absurd hc (List.not_mem_nil c)
  | cons a xs ih =>
      rintro t ⟨c, hc, hpc⟩
      cases hpa : p a
      · rw [List.cons_append, List.takeWhile_cons, hpa, List.takeWhile_cons, hpa]
        simp
      · have hcx : c ∈ xs := by
          rcases List.mem_cons.mp hc with rfl | h
          · rw [hpa] at hpc; exact absurd hpc (by simp)
          · exact h
        rw [List.cons_append, List.takeWhile_cons, hpa, List.takeWhile_cons, hpa]
        simp only [if_true, List.cons.injEq, true_and]
        exact ih t ⟨c, hcx, hpc⟩

lemma schemeChar_no_hash {c : Char} (h : schemeChar c = true) : c ≠ '#' ∧ c ≠ '?' := by
  constructor
  · intro he; subst he; exact absurd h (by decide)
  · intro he; subst he; exact absurd h (by decide)

lemma takeWhile_takeWhile {p q : Char → Bool} :
    ∀ l : Str, List.takeWhile p (List.takeWhile q l) =
      List.takeWhile (fun c => p c && q c) l := by
  intro l
  induction l with
  | nil => rfl
  | cons x xs ih =>
      rw [List.takeWhile_cons, List.takeWhile_cons]
      cases hq : q x
      · simp
      · cases hp : p x
        · simp [List.takeWhile_cons, hp]
        · simp only [if_true, Bool.and_true, Bool.and_self]
          rw [List.takeWhile_cons, hp]
          simp only [if_true, List.cons.injEq, true_and]
          exact ih

lemma cleanUrl_eq (x : Str) :
    cleanUrl x = x.takeWhile (fun c => c != '?' && c != '#') := by
  unfold cleanUrl
  rw [takeWhile_takeWhile]

lemma cleanUrl_append_of_clean {a : Str}
    (h : ∀ c ∈ a, (c != '?' && c != '#') = true) (b : Str) :
    cleanUrl (a ++ b) = a ++ cleanUrl b := by
  rw [cleanUrl_eq, cleanUrl_eq, takeWhile_append_all h]

lemma dropWhile_all_append {p : Char → Bool} {a : Str}
    (h : ∀ c ∈ a, p c = true) (b : Str) :
    List.dropWhile p (a ++ b) = List.dropWhile p b := by
  induction a with
  | nil => rfl
  | cons x xs ih =>
      rw [List.cons_append, List.dropWhile_cons, h x (List.mem_cons_self x xs)]
      simp only [if_true]
      exact ih (fun c hc => h c (List.mem_cons_of_mem x hc))

lemma dropWhile_eq_nil_of_all {p : Char → Bool} {x : Str}
    (h : ∀ c ∈ x, p c = true) : List.dropWhile p x = [] := by
  induction x with
  | nil => rfl
  | cons a xs ih =>
      rw [List.dropWhile_cons, h a (List.mem_cons_self a xs)]
      simp only [if_true]
      exact ih (fun c hc => h c (List.mem_cons_of_mem a hc))

/-- splitting off the scheme commutes with fragment/query stripping. -/
lemma schemeSplit_cleanUrl (u : Str) :
    schemeSplit (cleanUrl u) =
      (schemeSplit u).map (fun sr => (sr.1, cleanUrl sr.2)) := by
  cases hdrop : u.dropWhile (fun c => c != ':') with
  | nil =>
      have hall : ∀ c ∈ u, (c != ':') = true := List.dropWhile_eq_nil_iff.mp hdrop
      have hallc : ∀ c ∈ cleanUrl u, (c != ':') = true :=
        fun c hc => hall c ((cleanUrl_isPref u).subset hc)
      unfold schemeSplit
      rw [hdrop, dropWhile_eq_nil_of_all hallc]
      rfl
  | cons d rest =>
      have hdne : u.dropWhile (fun c => c != ':') ≠ [] := by rw [hdrop]; simp
      have hdcol : d = ':' := by
        have hnp := List.head_dropWhile_not (fun c => c != ':') u hdne
        have h2 : (u.dropWhile (fun c => c != ':')).head? = some d := by
          rw [hdrop]; rfl
        rw [List.head?_eq_head hdne] at h2
        have hh := Option.some.inj h2
        rw [hh] at hnp
        simpa using hnp
      subst hdcol
      set pre := u.takeWhile (fun c => c != ':') with hpre
      have hmempre : ∀ c ∈ pre, (c != ':') = true := by
        intro c hc
        rw [hpre] at hc
        exact List.mem_takeWhile_imp (p := fun c => c != ':') hc
      have hu : u = pre ++ ':' :: rest := by
        conv_lhs => rw [← List.takeWhile_append_dropWhile (fun c => c != ':') u, hdrop]
      by_cases hclean : ∀ c ∈ pre, (c != '?' && c != '#') = true
      · -- the whole scheme candidate survives stripping
        have heq : cleanUrl u = pre ++ ':' :: cleanUrl rest := by
          rw [hu, cleanUrl_append_of_clean hclean (':' :: rest)]
          rfl
        have htake : (cleanUrl u).takeWhile (fun c => c != ':') = pre := by
          rw [heq]; exact takeWhile_append_stop hmempre (by simp) _
        have hdropc : (cleanUrl u).dropWhile (fun c => c != ':') = ':' :: cleanUrl rest := by
          rw [heq, dropWhile_all_append hmempre, List.dropWhile_cons]
          simp
        unfold schemeSplit
        rw [hdrop, htake, hdropc]
        by_cases hvalid : schemeValid (u.takeWhile (fun c => c != ':')) = true
        · have h1 : schemeValid pre = true := hvalid
          simp [h1]
        · have h1 : schemeValid pre = false := Bool.eq_false_iff.mpr hvalid
          simp [h1]
      · -- stripping truncates inside the (hash/query-bearing) scheme candidate
        push_neg at hclean
        obtain ⟨c0, hc0, hc0p'⟩ := hclean
        have hc0p : (c0 != '?' && c0 != '#') = false := Bool.eq_false_iff.mpr hc0p'
        have hstable : cleanUrl u = pre.takeWhile (fun c => c != '?' && c != '#') := by
          rw [hu, cleanUrl_eq, takeWhile_prefix_stable pre (':' :: rest) ⟨c0, hc0, hc0p⟩]
        have hsub : ∀ c ∈ cleanUrl u, c ∈ pre := by
          intro c hc
          rw [hstable] at hc
          exact (List.takeWhile_prefix _).subset hc
        have hallc : ∀ c ∈ cleanUrl u, (c != ':') = true :=
          fun c hc => hmempre c (hsub c hc)
        have hc0val : c0 = '?' ∨ c0 = '#' := by
          rcases Bool.and_eq_false_iff.mp hc0p with h | h
          · left; simpa using h
          · right; simpa using h
        have hnotall : pre.all schemeChar = false := by
          cases hall : pre.all schemeChar
          · rfl
          · exfalso
            have := List.all_eq_true.mp hall c0 hc0
            rcases hc0val with rfl | rfl
            · exact absurd this (by decide)
            · exact absurd this (by decide)
        have hsv : schemeValid pre = false := by
          unfold schemeValid
          rw [hnotall]
          simp
        unfold schemeSplit
        rw [hdrop, dropWhile_eq_nil_of_all hallc]
        rw [← hpre, hsv]
        simp

lemma netlocRest_clean (r : Str) :
    (if ("//".toList).isPrefixOf (cleanUrl r) then
        ((cleanUrl r).drop 2).takeWhile (fun c => c != '/' && c != '?' && c != '#')
      else []) =
    (if ("//".toList).isPrefixOf r then
        (r.drop 2).takeWhile (fun c => c != '/' && c != '?' && c != '#')
      else []) := by
  by_cases hp : ("//".toList).isPrefixOf r = true
  · obtain ⟨t, ht⟩ := List.isPrefixOf_iff_prefix.mp hp
    have hr : r = '/' :: '/' :: t := ht.symm
    subst hr
    have hcl : cleanUrl ('/' :: '/' :: t) = '/' :: '/' :: cleanUrl t := rfl
    rw [hcl, hp]
    rw [if_pos (by rw [List.isPrefixOf_iff_prefix]; exact ⟨cleanUrl t, rfl⟩)]
    simp only [List.drop_succ_cons, List.drop_zero]
    exact takeWhile_noPSH_cleanUrl t
  · rw [if_neg hp, if_neg]
    intro hc
    apply hp
    rw [List.isPrefixOf_iff_prefix] at hc ⊢
    exact hc.trans (cleanUrl_isPref r)

/-- stripping fragment and query preserves the network host. -/
lemma urlNetloc_cleanUrl (u : Str) : urlNetloc (cleanUrl u) = urlNetloc u := by
  unfold urlNetloc restOf
  rw [schemeSplit_cleanUrl u]
  cases hsp : schemeSplit u with
  | none => exact netlocRest_clean u
  | some sr => exact netlocRest_clean sr.2

lemma suffix_getLast {l' l : Str} (h : l' <:+ l) (hne : l' ≠ []) :
    l.getLast? = l'.getLast? := by
  obtain ⟨w, rfl⟩ := h
  rw [List.getLast?_append]
  obtain ⟨c, hc⟩ := Option.ne_none_iff_exists'.mp
    (by rw [ne_eq, List.getLast?_eq_none_iff]; exact hne)
  rw [hc]
  rfl

lemma schemeSplit_eq_some {u pre rest : Str}
    (h : schemeSplit u = some (pre, rest)) : u = pre ++ ':' :: rest := by
  unfold schemeSplit at h
  split at h
  next heq =>
    split at h
    · injection h with h1
      injection h1 with hp hr
      subst hp; subst hr
      conv_lhs => rw [← List.takeWhile_append_dropWhile (fun c => c != ':') u, heq]
    · exact absurd h (by simp)
  next => exact absurd h (by simp)

lemma restOf_suffix (u : Str) : restOf u <:+ u := by
  unfold restOf
  cases hsp : schemeSplit u with
  | none => exact List.suffix_refl u
  | some sr =>
      obtain ⟨pre, rest⟩ := sr
      rw [schemeSplit_eq_some hsp]
      exact ⟨pre ++ [':'], by simp⟩

/-- a url that ends in a slash and carries no query/fragment has an empty path
or a path ending in a slash. -/
lemma urlPath_ends {u : Str} (hsl : u.getLast? = some '/')
    (hq : ∀ c ∈ u, c ≠ '?') (hh : ∀ c ∈ u, c ≠ '#') :
    urlPath u = [] ∨ (urlPath u).getLast? = some '/' := by
  unfold urlPath urlAfterNetloc
  have hsubr : ∀ c ∈ restOf u, c ∈ u := fun c hc => (restOf_suffix u).subset hc
  by_cases hrne : restOf u = []
  · left
    rw [hrne]
    simp
  · have hrlast : (restOf u).getLast? = some '/' := by
      rw [← suffix_getLast (restOf_suffix u) hrne]
      exact hsl
    by_cases hpp : ("//".toList).isPrefixOf (restOf u) = true
    · rw [if_pos hpp]
      by_cases hane :
          ((restOf u).drop 2).dropWhile (fun c => c != '/' && c != '?' && c != '#') = []
      · left
        rw [hane]
        simp
      · right
        have hasub : ((restOf u).drop 2).dropWhile
            (fun c => c != '/' && c != '?' && c != '#') <:+ (restOf u).drop 2 :=
          List.dropWhile_suffix _
        have hd2 : (restOf u).drop 2 <:+ restOf u := List.drop_suffix 2 _
        have halast : (((restOf u).drop 2).dropWhile
            (fun c => c != '/' && c != '?' && c != '#')).getLast? = some '/' := by
          rw [← suffix_getLast (hasub.trans hd2) hane]
          exact hrlast
        have hall : ∀ c ∈ ((restOf u).drop 2).dropWhile
            (fun c => c != '/' && c != '?' && c != '#'), (c != '?' && c != '#') = true := by
          intro c hc
          have hcu : c ∈ u := hsubr c ((hasub.trans hd2).subset hc)
          simp [hq c hcu, hh c hcu]
        rw [List.takeWhile_eq_self_iff.mpr hall]
        exact halast
    · rw [if_neg hpp]
      right
      have hall : ∀ c ∈ restOf u, (c != '?' && c != '#') = true := by
        intro c hc
        have hcu : c ∈ u := hsubr c hc
        simp [hq c hcu, hh c hcu]
      rw [List.takeWhile_eq_self_iff.mpr hall]
      exact hrlast

lemma dropEndWhile_decomp (p : Char → Bool) (x : Str) :
    ∃ s, x = dropEndWhile p x ++ s ∧ ∀ c ∈ s, p c = true := by
  refine ⟨(x.reverse.takeWhile p).reverse, ?_, ?_⟩
  · unfold dropEndWhile
    conv_lhs => rw [← List.reverse_reverse x,
      ← List.takeWhile_append_dropWhile p x.reverse]
    rw [List.reverse_append]
  · intro c hc
    rw [List.mem_reverse] at hc
    exact List.mem_takeWhile_imp hc

lemma takeWhile_append_to_fail {p : Char → Bool} (a : Str) {s : Str}
    (hs : s = [] ∨ ∃ c rest, s = c :: rest ∧ p c = false) :
    List.takeWhile p (a ++ s) = List.takeWhile p a := by
  rcases hs with rfl | ⟨c, rest, rfl, hc⟩
  · rw [List.append_nil]
  · induction a with
    | nil => rw [List.nil_append, List.takeWhile_cons, hc]; simp
    | cons x xs ih =>
        rw [List.cons_append, List.takeWhile_cons, List.takeWhile_cons]
        cases hp : p x
        · simp
        · simp only [if_true, List.cons.injEq, true_and]
          exact ih

lemma takeWhile_noPSH_all_slash {l : Str} (h : ∀ c ∈ l, c = '/') :
    List.takeWhile (fun c => c != '/' && c != '?' && c != '#') l = [] := by
  cases l with
  | nil => rfl
  | cons c cs =>
      rw [List.takeWhile_cons, h c (List.mem_cons_self c cs)]
      simp

lemma netlocOfRest_append_slashes (r : Str) {s : Str} (hs : ∀ c ∈ s, c = '/') :
    (if ("//".toList).isPrefixOf (r ++ s) then
        ((r ++ s).drop 2).takeWhile (fun c => c != '/' && c != '?' && c != '#')
      else []) =
    (if ("//".toList).isPrefixOf r then
        (r.drop 2).takeWhile (fun c => c != '/' && c != '?' && c != '#')
      else []) := by
  by_cases hpp : ("//".toList).isPrefixOf r = true
  · obtain ⟨t, ht⟩ := List.isPrefixOf_iff_prefix.mp hpp
    rw [if_pos hpp, if_pos (by
      rw [List.isPrefixOf_iff_prefix] at hpp ⊢
      exact hpp.trans (List.prefix_append r s))]
    rw [← ht]
    show List.takeWhile (fun c => c != '/' && c != '?' && c != '#')
        (('/' :: '/' :: (t ++ s)).drop 2) =
      List.takeWhile (fun c => c != '/' && c != '?' && c != '#')
        (('/' :: '/' :: t).drop 2)
    simp only [List.drop_succ_cons, List.drop_zero]
    apply takeWhile_append_to_fail
    cases hsnil : s with
    | nil => exact Or.inl rfl
    | cons c cs =>
        refine Or.inr ⟨c, cs, rfl, ?_⟩
        rw [hs c (by rw [hsnil]; exact List.mem_cons_self c cs)]
        rfl
  · rw [if_neg hpp]
    by_cases hpp2 : ("//".toList).isPrefixOf (r ++ s) = true
    · rw [if_pos hpp2]
      obtain ⟨w, hw⟩ := List.isPrefixOf_iff_prefix.mp hpp2
      have hrsl : ∀ c ∈ r, c = '/' := by
        match r, hw with
        | [], _ => intro c hc; exact absurd hc (List.not_mem_nil c)
        | [c1], hw => 
            intro c hc
            rw [List.singleton_append] at hw
            injection hw with h1 h2
            rcases List.mem_singleton.mp hc with rfl
            exact h1.symm
        | c1 :: c2 :: rr, hw =>
            exfalso
            rw [show (c1 :: c2 :: rr) ++ s = c1 :: c2 :: (rr ++ s) from rfl] at hw
            injection hw with h1 h2
            injection h2 with h2 h3
            apply hpp
            rw [List.isPrefixOf_iff_prefix, ← h1, ← h2]
            exact ⟨rr, rfl⟩
      apply takeWhile_noPSH_all_slash
      intro c hc
      have hmem : c ∈ r ++ s := (List.drop_suffix 2 _).subset hc
      rcases List.mem_append.mp hmem with h | h
      · exact hrsl c h
      · exact hs c h
    · rw [if_neg hpp2]

/-- appending trailing slashes does not change the network host. -/
lemma urlNetloc_append_slashes {x s : Str} (hs : ∀ c ∈ s, c = '/') :
    urlNetloc (x ++ s) = urlNetloc x := by
  have hrest : restOf (x ++ s) = restOf x ++ s ∨
      (restOf (x ++ s) = x ++ s ∧ restOf x = x) := by
    by_cases hcol : ∃ c ∈ x, (c != ':') = false
    · left
      have hdne : x.dropWhile (fun c => c != ':') ≠ [] := by
        intro he
        obtain ⟨c, hc, hpc⟩ := hcol
        have := List.dropWhile_eq_nil_iff.mp he c hc
        rw [this] at hpc
        exact absurd hpc (by simp)
      obtain ⟨d, dr, hdd⟩ := List.exists_cons_of_ne_nil hdne
      have hdcol : d = ':' := by
        have hnp := List.head_dropWhile_not (fun c => c != ':') x hdne
        have h2 : (x.dropWhile (fun c => c != ':')).head? = some d := by
          rw [hdd]; rfl
        rw [List.head?_eq_head hdne] at h2
        rw [Option.some.inj h2] at hnp
        simpa using hnp
      subst hdcol
      have hda : (x ++ s).dropWhile (fun c => c != ':') =
          ':' :: (dr ++ s) := by
        rw [List.dropWhile_append, if_neg (by rw [hdd]; simp)]
        rw [hdd]
        rfl
      unfold restOf schemeSplit
      rw [takeWhile_prefix_stable x s hcol, hda, hdd]
      by_cases hv : schemeValid (x.takeWhile (fun c => c != ':')) = true
      · simp [hv]
      · simp [Bool.eq_false_iff.mpr hv]
    · right
      push_neg at hcol
      have hallx : ∀ c ∈ x, (c != ':') = true := by
        intro c hc
        cases hb : (c != ':')
        · exact absurd hb (hcol c hc)
        · rfl
      have hallxs : ∀ c ∈ x ++ s, (c != ':') = true := by
        intro c hc
        rcases List.mem_append.mp hc with h | h
        · exact hallx c h
        · rw [hs c h]; rfl
      constructor
      · unfold restOf schemeSplit
        rw [dropWhile_eq_nil_of_all hallxs]
      · unfold restOf schemeSplit
        rw [dropWhile_eq_nil_of_all hallx]
  unfold urlNetloc
  rcases hrest with hr | ⟨hr1, hr2⟩
  · rw [hr]
    exact netlocOfRest_append_slashes (restOf x) hs
  · rw [hr1, hr2]
    exact netlocOfRest_append_slashes x hs

lemma is_offering_url_path_nil {u : Str} (hp : urlPath u = []) :
    is_offering_url u = false := by
  unfold is_offering_url
  rw [hp]
  rfl

lemma normalizeLinkUrl_netloc (u : Str) :
    urlNetloc (normalizeLinkUrl u) = urlNetloc (cleanUrl u) := by
  unfold normalizeLinkUrl
  split
  · obtain ⟨s, hs, hall⟩ := dropEndWhile_decomp (fun c => c == '/') (cleanUrl u)
    conv_rhs => rw [hs]
    rw [urlNetloc_append_slashes (fun c hc => by simpa using hall c hc)]
  · rfl

lemma normalizeLinkUrl_subset (u : Str) :
    ∀ c ∈ normalizeLinkUrl u, c ∈ cleanUrl u := by
  unfold normalizeLinkUrl
  split
  · exact fun c hc => (dropEndWhile_isPref _ _).subset hc
  · exact fun c hc => hc

lemma normalizeLinkUrl_ends {u : Str}
    (h : (normalizeLinkUrl u).getLast? = some '/') :
    urlPath (normalizeLinkUrl u) = [] ∨ urlPath (normalizeLinkUrl u) = ['/'] := by
  have hnoq : ∀ c ∈ cleanUrl u, c ≠ '?' := fun c hc => (mem_cleanUrl_no_hash c hc).2
  have hnoh : ∀ c ∈ cleanUrl u, c ≠ '#' := fun c hc => (mem_cleanUrl_no_hash c hc).1
  unfold normalizeLinkUrl at h ⊢
  split at h
  · exfalso
    have := dropEndWhile_getLast (fun c => c == '/') (cleanUrl u)
      (by intro he; rw [he] at h; exact absurd h (by simp)) '/' h
    exact absurd this (by simp)
  · next hcond =>
      rw [if_neg hcond]
      have hlen : ¬ ((urlPath (cleanUrl u)).length > 1) := by
        intro hgt
        apply hcond
        rw [h]
        simp [hgt]
      rcases urlPath_ends h hnoq hnoh with hnil | hend
      · exact Or.inl hnil
      · right
        have hne : urlPath (cleanUrl u) ≠ [] := by
          intro he; rw [he] at hend; exact absurd hend (by simp)
        obtain ⟨c, cs, hcc⟩ := List.exists_cons_of_ne_nil hne
        have hcs : cs = [] := by
          rw [hcc] at hlen
          cases cs with
          | nil => rfl
          | cons d ds => exfalso; apply hlen; simp
        rw [hcc, hcs] at hend ⊢
        have : c = '/' := by simpa using hend
        rw [this]

/-- every link produced by `tryLink` has the base's network host, carries no
fragment or query, has no trailing slash unless its path is the root, and is
not a repeat of a seen URL. -/
lemma tryLink_some_props {base : Str} {seen : List Str} {a : Str × Str}
    {li : LinkInfo} (h : tryLink base seen a = some li) :
    urlNetloc li.url = urlNetloc base ∧
    (∀ c ∈ li.url, c ≠ '#' ∧ c ≠ '?') ∧
    (li.url.getLast? = some '/' → urlPath li.url = ['/']) ∧
    li.url ∉ seen := by
  unfold tryLink at h
  by_cases h1 : (urlNetloc (urljoin base a.1) != urlNetloc base) = true
  · rw [if_pos h1] at h
    exact absurd h (by simp)
  · rw [if_neg h1] at h
    have hnet : urlNetloc (urljoin base a.1) = urlNetloc base := by
      simpa using h1
    by_cases h2 : seen.contains (normalizeLinkUrl (urljoin base a.1)) = true
    · rw [if_pos h2] at h
      exact absurd h (by simp)
    · rw [if_neg h2] at h
      by_cases h3 : is_offering_url (normalizeLinkUrl (urljoin base a.1)) = true
      · rw [if_pos h3] at h
        cases hcl : classify_offering_url (normalizeLinkUrl (urljoin base a.1)) with
        | none => rw [hcl] at h; exact absurd h (by simp)
        | some t =>
            rw [hcl] at h
            have hurl : li.url = normalizeLinkUrl (urljoin base a.1) := by
              injection h with h4
              rw [← h4]
            refine ⟨?_, ?_, ?_, ?_⟩
            · rw [hurl, normalizeLinkUrl_netloc, urlNetloc_cleanUrl]
              exact hnet
            · intro c hc
              rw [hurl] at hc
              have := normalizeLinkUrl_subset (urljoin base a.1) c hc
              exact ⟨(mem_cleanUrl_no_hash c this).1, (mem_cleanUrl_no_hash c this).2⟩
            · intro hend
              rw [hurl] at hend ⊢
              rcases normalizeLinkUrl_ends hend with hnil | hroot
              · exact absurd h3 (by rw [is_offering_url_path_nil hnil]; simp)
              · exact hroot
            · rw [hurl]
              intro hmem
              exact h2 (by simpa using hmem)
      · rw [if_neg h3] at h
        exact absurd h (by simp)

lemma processAnchors_length (base : Str) (maxLinks : Nat) :
    ∀ (anchors : List (Str × Str)) (links : List LinkInfo) (seen : List Str),
      (processAnchors base maxLinks anchors links seen).length ≤
        max maxLinks (links.length + 1) := by
  intro anchors
  induction anchors with
  | nil =>
      intro links seen
      rw [processAnchors]
      exact le_max_of_le_right (Nat.le_succ _)
  | cons a rest ih =>
      intro links seen
      rw [processAnchors]
      cases htl : tryLink base seen a with
      | none => exact ih links seen
      | some li =>
          show (if maxLinks ≤ (links ++ [li]).length then links ++ [li]
            else processAnchors base maxLinks rest (links ++ [li])
              (li.url :: seen)).length ≤ max maxLinks (links.length + 1)
          by_cases hcap : maxLinks ≤ (links ++ [li]).length
          · rw [if_pos hcap]
            simp only [List.length_append, List.length_cons, List.length_nil]
            exact le_max_of_le_right (by omega)
          · rw [if_neg hcap]
            have h2 := ih (links ++ [li]) (li.url :: seen)
            refine le_trans h2 ?_
            simp only [List.length_append, List.length_cons, List.length_nil] at hcap ⊢
            have hmx : max maxLinks (links.length + 1 + 1) = maxLinks :=
              max_eq_left (by omega)
            rw [hmx]
            exact le_max_left _ _

lemma processAnchors_mem (base : Str) (maxLinks : Nat) :
    ∀ (anchors : List (Str × Str)) (links : List LinkInfo) (seen : List Str),
      ∀ x ∈ processAnchors base maxLinks anchors links seen,
        x ∈ links ∨ ∃ seen' a, tryLink base seen' a = some x := by
  intro anchors
  induction anchors with
  | nil =>
      intro links seen x hx
      rw [processAnchors] at hx
      exact Or.inl hx
  | cons a rest ih =>
      intro links seen x hx
      rw [processAnchors] at hx
      cases htl : tryLink base seen a with
      | none =>
          rw [htl] at hx
          exact ih links seen x hx
      | some li =>
          rw [htl] at hx
          have hx2 : x ∈ (if maxLinks ≤ (links ++ [li]).length then links ++ [li]
              else processAnchors base maxLinks rest (links ++ [li])
                (li.url :: seen)) := hx
          by_cases hcap : maxLinks ≤ (links ++ [li]).length
          · rw [if_pos hcap] at hx2
            rcases List.mem_append.mp hx2 with h | h
            · exact Or.inl h
            · exact Or.inr ⟨seen, a, by rw [htl, List.mem_singleton.mp h]⟩
          · rw [if_neg hcap] at hx2
            rcases ih (links ++ [li]) (li.url :: seen) x hx2 with h | h
            · rcases List.mem_append.mp h with h2 | h2
              · exact Or.inl h2
              · exact Or.inr ⟨seen, a, by rw [htl, List.mem_singleton.mp h2]⟩
            · exact Or.inr h

lemma processAnchors_accum (base : Str) (maxLinks : Nat) :
    ∀ (anchors : List (Str × Str)) (links : List LinkInfo) (seen : List Str),
      ∃ t, (processAnchors base maxLinks anchors links seen).map (fun l => l.url)
          = links.map (fun l => l.url) ++ t ∧
        t <+: acceptedStream base anchors seen := by
  intro anchors
  induction anchors with
  | nil =>
      intro links seen
      exact ⟨[], by rw [processAnchors]; simp, List.nil_prefix⟩
  | cons a rest ih =>
      intro links seen
      rw [processAnchors, acceptedStream]
      cases htl : tryLink base seen a with
      | none => exact ih links seen
      | some li =>
          show ∃ t, (if maxLinks ≤ (links ++ [li]).length then links ++ [li]
              else processAnchors base maxLinks rest (links ++ [li])
                (li.url :: seen)).map (fun l => l.url)
              = links.map (fun l => l.url) ++ t ∧
            t <+: li.url :: acceptedStream base rest (li.url :: seen)
          by_cases hcap : maxLinks ≤ (links ++ [li]).length
          · rw [if_pos hcap]
            exact ⟨[li.url], by simp, ⟨_, rfl⟩⟩
          · rw [if_neg hcap]
            rcases ih (links ++ [li]) (li.url :: seen) with ⟨t, ht1, ht2⟩
            rcases ht2 with ⟨s, hs⟩
            refine ⟨li.url :: t, ?_, ⟨s, ?_⟩⟩
            · rw [ht1]; simp
            · rw [List.cons_append, hs]

lemma acceptedStream_nodup (base : Str) :
    ∀ (anchors : List (Str × Str)) (seen : List Str),
      (acceptedStream base anchors seen).Nodup ∧
      ∀ u ∈ acceptedStream base anchors seen, u ∉ seen := by
  intro anchors
  induction anchors with
  | nil =>
      intro seen
      rw [acceptedStream]
      exact ⟨List.nodup_nil, by intro u hu; cases hu⟩
  | cons a rest ih =>
      intro seen
      rw [acceptedStream]
      cases htl : tryLink base seen a with
      | none => exact ih seen
      | some li =>
          show (li.url :: acceptedStream base rest (li.url :: seen)).Nodup ∧
            ∀ u ∈ li.url :: acceptedStream base rest (li.url :: seen), u ∉ seen
          have hli := (tryLink_some_props htl).2.2.2
          rcases ih (li.url :: seen) with ⟨hnd, hmem⟩
          constructor
          · refine List.nodup_cons.mpr ⟨?_, hnd⟩
            intro hc
            exact hmem _ hc (List.mem_cons_self _ _)
          · intro u hu
            rcases List.mem_cons.mp hu with rfl | hu2
            · exact hli
            · intro hs
              exact hmem u hu2 (List.mem_cons_of_mem _ hs)

/-- C5 counterexample: with `max_links = 0` the loop still returns one link,
because the cap is tested only after the append — so "length at most
max_links" fails; and on `orderDoc`, whose menu div precedes the nav in
document order, the raw document order of anchors is products-then-services
while the returned order is services-then-products (semantic areas are
traversed before class-matched areas) — so "first-occurrence document order"
fails. -/
theorem claim5_counterexample :
    (find_service_links demoNavDoc ("https://example.com".toList) 0).length = 1 ∧
    docAnchors orderDoc = ["/products".toList, "/services".toList] ∧
    (find_service_links orderDoc ("https://example.com".toList) 50).map
        (fun l => l.url) =
      ["https://example.com/services".toList,
       "https://example.com/products".toList] := by
  refine ⟨by decide, by decide, by decide⟩

/-- C5 (corrected): for every document, base url and cap, `find_service_links`
returns at most `max maxLinks 1` links (the cap admits one link even when
`maxLinks = 0`); every returned url shares the base url's network host,
contains no `#` and no `?`, and ends in `/` only when its path is the root;
and the returned urls are pairwise distinct and form a prefix of the accepted
candidate stream in area-traversal order — semantic areas first, then
class-matched areas — rather than raw document order. -/
theorem claim5_link_invariants (doc : List Node) (base : Str) (maxLinks : Nat) :
    (find_service_links doc base maxLinks).length ≤ max maxLinks 1 ∧
    (∀ li ∈ find_service_links doc base maxLinks,
      urlNetloc li.url = urlNetloc base ∧
      (∀ c ∈ li.url, c ≠ '#' ∧ c ≠ '?') ∧
      (li.url.getLast? = some '/' → urlPath li.url = ['/'])) ∧
    ((find_service_links doc base maxLinks).map (fun l => l.url)).Nodup ∧
    (find_service_links doc base maxLinks).map (fun l => l.url)
      <+: acceptedStream base (anchorStream doc) [] := by
  refine ⟨?_, ?_, ?_, ?_⟩
  · have h := processAnchors_length base maxLinks (anchorStream doc) [] []
    simpa [find_service_links] using h
  · intro li hli
    have hli2 : li ∈ processAnchors base maxLinks (anchorStream doc) [] [] := hli
    rcases processAnchors_mem base maxLinks (anchorStream doc) [] [] li hli2 with
      h | ⟨seen2, a, h⟩
    · cases h
    · rcases tryLink_some_props h with ⟨h1, h2, h3, _⟩
      exact ⟨h1, h2, h3⟩
  · rcases processAnchors_accum base maxLinks (anchorStream doc) [] [] with
      ⟨t, ht1, ht2⟩
    have hmap : (find_service_links doc base maxLinks).map (fun l => l.url) = t := by
      simp only [find_service_links]
      rw [ht1]
      simp
    rw [hmap]
    exact (acceptedStream_nodup base (anchorStream doc) []).1.sublist ht2.sublist
  · rcases processAnchors_accum base maxLinks (anchorStream doc) [] [] with
      ⟨t, ht1, ht2⟩
    have hmap : (find_service_links doc base maxLinks).map (fun l => l.url) = t := by
      simp only [find_service_links]
      rw [ht1]
      simp
    rw [hmap]
    exact ht2
